import Mathlib

/-!
# Matrix-multiplication benchmark harness (`apps/matmul/main.c`)

A shallow embedding of `init_matrix`, `verify_matrix` and the driver loop of
`main`, together with the properties of the analytic ("golden value")
verification.

Conventions of the embedding.

* An `int64_t` value is an `Int`; every C operation on `int64_t` is followed by
  the two's-complement wraparound `toInt64`.  The C division `/` is the
  truncating division `Int.tdiv`.
* A `uint64_t` value is a `Nat`; index arithmetic on it is reduced modulo `2^64`.
* The `int` result of `verify_matrix` and of `main` is obtained with `toInt32`.
* A matrix buffer is a function from the cell index to the cell value.
-/

namespace Matmul

/-! ## Machine arithmetic -/

/-- The range of `int64_t`. -/
def InRange (x : Int) : Prop := -9223372036854775808 ≤ x ∧ x < 9223372036854775808

instance (x : Int) : Decidable (InRange x) := by
  unfold InRange; infer_instance

/-- Two's-complement wraparound of an integer to `int64_t`. -/
def toInt64 (x : Int) : Int :=
  (x + 9223372036854775808) % 18446744073709551616 - 9223372036854775808

/-- Two's-complement wraparound of an integer to the 32-bit `int`. -/
def toInt32 (x : Int) : Int := (x + 2147483648) % 4294967296 - 2147483648

/-- Addition of `int64_t`. -/
def add64 (x y : Int) : Int := toInt64 (x + y)

/-- Subtraction of `int64_t`. -/
def sub64 (x y : Int) : Int := toInt64 (x - y)

/-- Multiplication of `int64_t`. -/
def mul64 (x y : Int) : Int := toInt64 (x * y)

/-! ## The golden value of `verify_matrix` -/

/-- The coefficient term of `lin`:
`aa * bb * i * j + aa * bc * i + ac * bb * j + ac * bc`. -/
def linCoef (aa ac bb bc i j : Int) : Int :=
  add64 (add64 (add64 (mul64 (mul64 (mul64 aa bb) i) j) (mul64 (mul64 aa bc) i))
    (mul64 (mul64 ac bb) j)) (mul64 ac bc)

/-- The coefficient term of `qua`:
`aa * ba * i + ab * bb * j + ab * bc + ba * ac`. -/
def quaCoef (aa ab ac ba bb bc i j : Int) : Int :=
  add64 (add64 (add64 (mul64 (mul64 aa ba) i) (mul64 (mul64 ab bb) j)) (mul64 ab bc))
    (mul64 ba ac)

/-- The factor `n * (n - 1)` of `qua`. -/
def pairFactor (n : Int) : Int := mul64 n (sub64 n 1)

/-- The factor `n * (n - 1) * (2 * n - 1)` of `cub`. -/
def tripleFactor (n : Int) : Int :=
  mul64 (mul64 n (sub64 n 1)) (sub64 (mul64 2 n) 1)

/-- The dividend of `qua`:
`(aa * ba * i + ab * bb * j + ab * bc + ba * ac) * (n * (n - 1))`. -/
def quaDividend (n aa ab ac ba bb bc i j : Int) : Int :=
  mul64 (quaCoef aa ab ac ba bb bc i j) (pairFactor n)

/-- The dividend of `cub`: `(ab * ba) * (n * (n - 1) * (2 * n - 1))`. -/
def cubDividend (n ab ba : Int) : Int :=
  mul64 (mul64 ab ba) (tripleFactor n)

/-- Line 68:
`lin = (aa * bb * i * j + aa * bc * i + ac * bb * j + ac * bc) * n`. -/
def lin (n aa ac bb bc i j : Int) : Int := mul64 (linCoef aa ac bb bc i j) n

/-- Line 69:
`qua = ((aa * ba * i + ab * bb * j + ab * bc + ba * ac) * (n * (n - 1))) / 2`. -/
def qua (n aa ab ac ba bb bc i j : Int) : Int :=
  Int.tdiv (quaDividend n aa ab ac ba bb bc i j) 2

/-- Line 70: `cub = ((ab * ba) * (n * (n - 1) * (2 * n - 1))) / 6`. -/
def cub (n ab ba : Int) : Int := Int.tdiv (cubDividend n ab ba) 6

/-- Line 71: `golden = lin + qua + cub`. -/
def golden (n aa ab ac ba bb bc i j : Int) : Int :=
  add64 (add64 (lin n aa ac bb bc i j) (qua n aa ab ac ba bb bc i j)) (cub n ab ba)

/-- The sum `f 0 + f 1 + ... + f (n - 1)` over the integers. -/
def sumTo (f : Nat → Int) : Nat → Int
  | 0 => 0
  | k + 1 => sumTo f k + f k

/-- The two dividends of `golden` are formed without overflow: the exact values
of `n * (n - 1) * (2 * n - 1)` and of the two products that are divided by `2`
and by `6` lie in the `int64_t` range. -/
def DividendsFit (n aa ab ac ba bb bc i j : Int) : Prop :=
  InRange (n * (n - 1) * (2 * n - 1)) ∧
  InRange (quaCoef aa ab ac ba bb bc i j * (n * (n - 1))) ∧
  InRange (mul64 ab ba * (n * (n - 1) * (2 * n - 1)))

instance (n aa ab ac ba bb bc i j : Int) :
    Decidable (DividendsFit n aa ab ac ba bb bc i j) := by
  unfold DividendsFit; infer_instance

/-! ## Buffers and `init_matrix` -/

/-- A matrix buffer: the value of each cell, by index. -/
abbrev Buffer := Nat → Int

/-- The assignment `matrix[idx] = v`. -/
def write (matrix : Buffer) (idx : Nat) (v : Int) : Buffer :=
  fun k => if k = idx then v else matrix k

/-- The `uint64_t` index `i * num_columns + j` of line 58. -/
def init_index (num_columns i j : Nat) : Nat :=
  (i * num_columns % 18446744073709551616 + j) % 18446744073709551616

/-- The value `a * (int64_t)i + b * (int64_t)j + c` of line 58. -/
def init_value (a b c : Int) (i j : Nat) : Int :=
  add64 (add64 (mul64 a (toInt64 i)) (mul64 b (toInt64 j))) c

/-- The inner loop of `init_matrix` (lines 57-59) in row `i`: the buffer after
the iterations `j = 0, ..., cnt - 1`. -/
def init_row (num_columns : Nat) (a b c : Int) (i : Nat) (matrix : Buffer) : Nat → Buffer
  | 0 => matrix
  | j + 1 =>
    write (init_row num_columns a b c i matrix j) (init_index num_columns i j)
      (init_value a b c i j)

/-- The outer loop of `init_matrix` (lines 56-60): the buffer after the rows
`i = 0, ..., cnt - 1`. -/
def init_rows (num_columns : Nat) (a b c : Int) (matrix : Buffer) : Nat → Buffer
  | 0 => matrix
  | i + 1 => init_row num_columns a b c i (init_rows num_columns a b c matrix i) num_columns

/-- The function `init_matrix` (lines 54-61): the buffer it leaves. -/
def init_matrix (matrix : Buffer) (num_rows num_columns : Nat) (a b c : Int) : Buffer :=
  init_rows num_columns a b c matrix num_rows

/-! ## `verify_matrix` -/

/-- The `int64_t` index `i * p + j` of lines 72-76, as a cell of the buffer. -/
def cell_index (p : Int) (i j : Nat) : Nat := Int.toNat (add64 (mul64 i p) j)

/-- The value returned at a mismatch (line 74), `(i + j) == 0 ? -1 : i * p + j`,
converted to the result type `int`. -/
def error_code (p : Int) (i j : Nat) : Int :=
  toInt32 (if add64 i j = 0 then -1 else add64 (mul64 i p) j)

/-- The inner loop of `verify_matrix` (lines 67-77) in row `i`, from column `j`
with `cnt` iterations left: the error code of the first mismatch, if any, and
the buffer. -/
def verify_cols (n p aa ab ac ba bb bc : Int) (i : Nat) :
    Nat → Nat → Buffer → Option Int × Buffer
  | 0, _, matrix => (none, matrix)
  | cnt + 1, j, matrix =>
    if matrix (cell_index p i j) ≠ golden n aa ab ac ba bb bc i j then
      (some (error_code p i j), matrix)
    else
      verify_cols n p aa ab ac ba bb bc i cnt (j + 1) (write matrix (cell_index p i j) 0)

/-- The outer loop of `verify_matrix` (lines 66-78), from row `i` with `cnt`
iterations left. -/
def verify_rows (n p aa ab ac ba bb bc : Int) :
    Nat → Nat → Buffer → Option Int × Buffer
  | 0, _, matrix => (none, matrix)
  | cnt + 1, i, matrix =>
    match verify_cols n p aa ab ac ba bb bc i p.toNat 0 matrix with
    | (some e, matrix') => (some e, matrix')
    | (none, matrix') => verify_rows n p aa ab ac ba bb bc cnt (i + 1) matrix'

/-- The function `verify_matrix` (lines 64-80): the value it returns and the
buffer it leaves. -/
def verify_matrix (matrix : Buffer) (m n p aa ab ac ba bb bc : Int) : Int × Buffer :=
  match verify_rows n p aa ab ac ba bb bc m.toNat 0 matrix with
  | (some e, matrix') => (e, matrix')
  | (none, matrix') => (0, matrix')

/-- The buffer `matrix` with the cells of index `lo ≤ k < hi` set to zero. -/
def zeroRange (matrix : Buffer) (lo hi : Nat) : Buffer :=
  fun k => if lo ≤ k ∧ k < hi then 0 else matrix k

/-- The buffer `matrix` with the cells of index below `hi` set to zero. -/
def zeroBelow (matrix : Buffer) (hi : Nat) : Buffer :=
  fun k => if k < hi then 0 else matrix k

/-! ## The kernel contract -/

/-- Modelled from the spec: the contract of the kernel `matmul` (section 4.3;
`kernel/matmul.h` is not among the sources).  The partial sum
`A[i*n+0] * B[0*p+j] + ... + A[i*n+(k-1)] * B[(k-1)*p+j]`, accumulated in
`int64_t` arithmetic. -/
def dot64 (A B : Buffer) (n p i j : Nat) : Nat → Int
  | 0 => 0
  | k + 1 => add64 (dot64 A B n p i j k) (mul64 (A (i * n + k)) (B (k * p + j)))

/-- Modelled from the spec: the cell `(i, j)` of the product the kernel has to
deliver, `Σ_{k<n} A[i*n+k] * B[k*p+j]` in `int64_t` arithmetic. -/
def matmul_ref (A B : Buffer) (n p i j : Nat) : Int := dot64 A B n p i j n

/-- The sum of section 8 of the specification,
`Σ_{k<n} (Aa·k + Ab·i + Ac)·(Ba·k + Bb·j + Bc) mod 2^64`. -/
def spec_dot (n : Nat) (aa ab ac ba bb bc i j : Int) : Int :=
  toInt64 (sumTo (fun k => (aa * k + ab * i + ac) * (ba * k + bb * j + bc)) n)

/-- The dot product, modulo `2^64`, of row `i` of `A` and column `j` of `B` for
the entries of line 58 (`a * i + b * j + c` in row `i` and column `j`):
`Σ_{k<n} (Aa·i + Ab·k + Ac)·(Ba·k + Bb·j + Bc) mod 2^64`. -/
def row_col_dot (n : Nat) (aa ab ac ba bb bc i j : Int) : Int :=
  toInt64 (sumTo (fun k => (aa * i + ab * k + ac) * (ba * k + bb * j + bc)) n)

/-! ## The driver -/

/-- Line 29: `#define M 128`. -/
def M : Nat := 128

/-- Line 42: `#define A_a 1`. -/
def A_a : Int := 1

/-- Line 43: `#define A_b 1`. -/
def A_b : Int := 1

/-- Line 44: `#define A_c -32`. -/
def A_c : Int := -32

/-- Line 45: `#define B_a 2`. -/
def B_a : Int := 2

/-- Line 46: `#define B_b 1`. -/
def B_b : Int := 1

/-- Line 47: `#define B_c 16`. -/
def B_c : Int := 16

/-- The three global buffers `a`, `b` and `c` (lines 49-51). -/
structure State where
  a : Buffer
  b : Buffer
  c : Buffer

/-- What the driver does, in order. -/
inductive Event where
  | init (s : Nat)
  | kernel (s : Nat) (runtime : Int)
  | verify (s : Nat) (error : Int)
  deriving DecidableEq

/-- The body of the loop of `main` (lines 108-129) for the size `s`, with the
kernel `matmul(c, a, b, s, s, s)` as a parameter acting on the buffers: the
value of `error` and the buffers afterwards. -/
def iteration (matmul : State → Nat → Nat → Nat → State) (s : Nat) (st : State) :
    Int × State :=
  let a := init_matrix st.a s s A_a A_b A_c
  let b := init_matrix st.b s s B_a B_b B_c
  let st1 := matmul ⟨a, b, st.c⟩ s s s
  let r := verify_matrix st1.c s s s A_a A_b A_c B_a B_b B_c
  (r.1, ⟨st1.a, st1.b, r.2⟩)

/-- The events of one run of the loop body. -/
def iteration_events (get_timer : Nat → Int) (s : Nat) (error : Int) : List Event :=
  [Event.init s, Event.kernel s (get_timer s), Event.verify s error]

/-- The loop of `main` (lines 101-137), `for (int s = ...; s <= M; s *= 2)`, with
the kernel and the timer as parameters and `fuel` bounding the number of
iterations: the value `main` returns, the buffers and the events, or `none`
when the fuel runs out. -/
def main_loop (matmul : State → Nat → Nat → Nat → State) (get_timer : Nat → Int) :
    Nat → Nat → State → List Event → Option (Int × State × List Event)
  | 0, _, _, _ => none
  | fuel + 1, s, st, log =>
    if s ≤ M then
      let r := iteration matmul s st
      let log' := log ++ iteration_events get_timer s r.1
      if r.1 ≠ 0 then some (r.1, r.2, log')
      else main_loop matmul get_timer fuel (s * 2) r.2 log'
    else some (0, st, log)

/-- The function `main` (lines 93-140): the loop started at `s = 4`. -/
def main (matmul : State → Nat → Nat → Nat → State) (get_timer : Nat → Int)
    (st : State) : Option (Int × State × List Event) :=
  main_loop matmul get_timer 7 4 st []

/-- The buffers before the size number `k` of the sweep (size `4 * 2^k`) when
every earlier size has been run. -/
def state_at (matmul : State → Nat → Nat → Nat → State) (st : State) : Nat → State
  | 0 => st
  | k + 1 => (iteration matmul (4 * 2 ^ k) (state_at matmul st k)).2

/-- The result of `verify_matrix` at the size number `k` of the sweep. -/
def error_at (matmul : State → Nat → Nat → Nat → State) (st : State) (k : Nat) : Int :=
  (iteration matmul (4 * 2 ^ k) (state_at matmul st k)).1

/-- The events of the sizes number `0, ..., cnt - 1` of the sweep. -/
def events_upto (matmul : State → Nat → Nat → Nat → State) (get_timer : Nat → Int)
    (st : State) : Nat → List Event
  | 0 => []
  | k + 1 =>
    events_upto matmul get_timer st k
      ++ iteration_events get_timer (4 * 2 ^ k) (error_at matmul st k)

/-- A buffer of `2^31 + 1` cells that is zero except in its last cell. -/
def wide_buffer : Buffer := fun k => if k = 2147483648 then 1 else 0

/-- A kernel that delivers the product of `a` and `b` in the first `m * p` cells
of `c` and leaves the other cells alone. -/
def exact_kernel (st : State) (m n p : Nat) : State :=
  ⟨st.a, st.b, fun k => if k < m * p then matmul_ref st.a st.b n p (k / p) (k % p) else st.c k⟩

/-- A kernel that delivers the exact product except for the lowest bit of
`out[0]`, which it flips. -/
def broken_kernel (st : State) (m n p : Nat) : State :=
  ⟨st.a, st.b, fun k =>
    if k = 0 then
      (if (exact_kernel st m n p).c 0 % 2 = 0 then (exact_kernel st m n p).c 0 + 1
       else (exact_kernel st m n p).c 0 - 1)
    else (exact_kernel st m n p).c k⟩

/-- The exact `1 x 1` product of the `1 x 2` matrix generated with `(0, 2^62, 0)`
and the `2 x 1` matrix generated with `(0, 0, 1)`. -/
def overflow_out : Buffer :=
  fun _ => matmul_ref (init_matrix (fun _ => 0) 1 2 0 4611686018427387904 0)
    (init_matrix (fun _ => 0) 2 1 0 0 1) 2 1 0 0

/-- One checked `int64_t` operation: the exact result when it lies in the range
of `int64_t`, nothing when it overflows. -/
def checked (x : Int) : Option Int := if InRange x then some x else none

/-- Line 68 with every product and sum checked. -/
def lin_checked (n aa ac bb bc i j : Int) : Option Int := do
  let t1 ← checked (aa * bb)
  let t2 ← checked (t1 * i)
  let t3 ← checked (t2 * j)
  let t4 ← checked (aa * bc)
  let t5 ← checked (t4 * i)
  let t6 ← checked (t3 + t5)
  let t7 ← checked (ac * bb)
  let t8 ← checked (t7 * j)
  let t9 ← checked (t6 + t8)
  let t10 ← checked (ac * bc)
  let t11 ← checked (t9 + t10)
  checked (t11 * n)

/-- The dividend of line 69 with every product, sum and difference checked. -/
def quaDividend_checked (n aa ab ac ba bb bc i j : Int) : Option Int := do
  let u1 ← checked (aa * ba)
  let u2 ← checked (u1 * i)
  let u3 ← checked (ab * bb)
  let u4 ← checked (u3 * j)
  let u5 ← checked (u2 + u4)
  let u6 ← checked (ab * bc)
  let u7 ← checked (u5 + u6)
  let u8 ← checked (ba * ac)
  let u9 ← checked (u7 + u8)
  let v1 ← checked (n - 1)
  let v2 ← checked (n * v1)
  checked (u9 * v2)

/-- The dividend of line 70 with every product and difference checked. -/
def cubDividend_checked (n ab ba : Int) : Option Int := do
  let w1 ← checked (ab * ba)
  let v1 ← checked (n - 1)
  let v2 ← checked (n * v1)
  let w2 ← checked (2 * n)
  let w3 ← checked (w2 - 1)
  let w4 ← checked (v2 * w3)
  checked (w1 * w4)

/-- Lines 68-71 evaluated with every product, sum and difference checked: the
golden value when no intermediate result leaves the `int64_t` range. -/
def golden_checked (n aa ab ac ba bb bc i j : Int) : Option Int := do
  let l ← lin_checked n aa ac bb bc i j
  let q ← quaDividend_checked n aa ab ac ba bb bc i j
  let c ← cubDividend_checked n ab ba
  let s ← checked (l + Int.tdiv q 2)
  checked (s + Int.tdiv c 6)

/-- Line 30: `#define N 128`. -/
def N : Nat := 128

/-- Line 31: `#define P 128`. -/
def P : Nat := 128

/-- The golden value as section 4.2 of the specification writes it, in the same
`int64_t` arithmetic: the constants `N·(N−1)` and `N·(N−1)·(2N−1)` are divided by
`2` and by `6` first and multiplied by the coefficient terms afterwards,
`N * (Aa·Bb·i·j + Aa·Bc·i + Ac·Bb·j + Ac·Bc)
  + (N·(N−1)/2) * (Aa·Ba·i + Ab·Bb·j + Ab·Bc + Ba·Ac)
  + (N·(N−1)·(2N−1)/6) * (Ab·Ba)`. -/
def spec_golden (n aa ab ac ba bb bc i j : Int) : Int :=
  add64
    (add64 (mul64 n (linCoef aa ac bb bc i j))
      (mul64 (Int.tdiv (pairFactor n) 2) (quaCoef aa ab ac ba bb bc i j)))
    (mul64 (Int.tdiv (tripleFactor n) 6) (mul64 ab ba))

/-! ## Lemmas on the machine arithmetic -/

theorem toInt64_of_inRange {x : Int} (h : InRange x) : toInt64 x = x := by
  unfold InRange at h
  unfold toInt64
  rw [Int.emod_eq_of_lt (by omega) (by omega)]
  omega

theorem toInt64_inRange (x : Int) : InRange (toInt64 x) := by
  unfold InRange toInt64
  omega

theorem toInt64_cast (x : Int) :
    ((toInt64 x : Int) : ZMod 18446744073709551616) = (x : ZMod 18446744073709551616) := by
  have h : ((18446744073709551616 : Int) : ZMod 18446744073709551616) = 0 := by
    exact_mod_cast ZMod.natCast_self 18446744073709551616
  unfold toInt64
  rw [Int.emod_def]
  push_cast at h ⊢
  rw [h]
  ring

theorem toInt64_congr {x y : Int}
    (h : (x : ZMod 18446744073709551616) = (y : ZMod 18446744073709551616)) :
    toInt64 x = toInt64 y := by
  have h2 := (ZMod.intCast_eq_intCast_iff x y 18446744073709551616).1 h
  have h3 : (x + 9223372036854775808) % 18446744073709551616
      = (y + 9223372036854775808) % 18446744073709551616 := by
    have := h2.add_right 9223372036854775808
    simpa [Int.ModEq] using this
  unfold toInt64
  rw [h3]

theorem toInt64_idem (x : Int) : toInt64 (toInt64 x) = toInt64 x :=
  toInt64_of_inRange (toInt64_inRange x)

theorem add64_cast (x y : Int) :
    ((add64 x y : Int) : ZMod 18446744073709551616) = (x : ZMod _) + (y : ZMod _) := by
  unfold add64; rw [toInt64_cast]; push_cast; rfl

theorem sub64_cast (x y : Int) :
    ((sub64 x y : Int) : ZMod 18446744073709551616) = (x : ZMod _) - (y : ZMod _) := by
  unfold sub64; rw [toInt64_cast]; push_cast; rfl

theorem mul64_cast (x y : Int) :
    ((mul64 x y : Int) : ZMod 18446744073709551616) = (x : ZMod _) * (y : ZMod _) := by
  unfold mul64; rw [toInt64_cast]; push_cast; rfl

/-! ## The closed form over the integers -/

theorem sumTo_id_mul_two (n : Nat) :
    sumTo (fun k => (k : Int)) n * 2 = (n : Int) * ((n : Int) - 1) := by
  induction n with
  | zero => simp [sumTo]
  | succ k ih =>
    simp only [sumTo]
    push_cast
    linear_combination ih

theorem sumTo_sq_mul_six (n : Nat) :
    sumTo (fun k => (k : Int) * (k : Int)) n * 6
      = (n : Int) * ((n : Int) - 1) * (2 * (n : Int) - 1) := by
  induction n with
  | zero => simp [sumTo]
  | succ k ih =>
    simp only [sumTo]
    push_cast
    linear_combination ih

/-- The dot product of row `i` of `A` with column `j` of `B`, for the entries
`a * i + b * k + c` that `init_matrix` writes, split along the powers of `k`. -/
theorem sumTo_affine (aa ab ac ba bb bc i j : Int) (n : Nat) :
    sumTo (fun k => (aa * i + ab * k + ac) * (ba * k + bb * j + bc)) n
      = (aa * bb * i * j + aa * bc * i + ac * bb * j + ac * bc) * n
        + (aa * ba * i + ab * bb * j + ab * bc + ba * ac) * sumTo (fun k => (k : Int)) n
        + (ab * ba) * sumTo (fun k => (k : Int) * (k : Int)) n := by
  induction n with
  | zero => simp [sumTo]
  | succ k ih =>
    simp only [sumTo]
    push_cast
    linear_combination ih

theorem factors_fit {n : Int} (h0 : 0 ≤ n) (h : InRange (n * (n - 1) * (2 * n - 1))) :
    InRange (n - 1) ∧ InRange (n * (n - 1)) ∧ InRange (2 * n) ∧ InRange (2 * n - 1) := by
  unfold InRange at *
  rcases le_or_lt n 1 with h1 | h1
  · have : n = 0 ∨ n = 1 := by omega
    rcases this with rfl | rfl <;> norm_num
  · have h2 : 2 ≤ n := by omega
    have p3 : 2 ≤ n * (n - 1) := by nlinarith
    have k1 : 2 * n ≤ n * (n - 1) * (2 * n - 1) := by nlinarith
    have k2 : n * (n - 1) ≤ n * (n - 1) * (2 * n - 1) := by nlinarith
    refine ⟨⟨?_, ?_⟩, ⟨?_, ?_⟩, ⟨?_, ?_⟩, ⟨?_, ?_⟩⟩ <;> linarith [h.1, h.2]

theorem pairFactor_eq {n : Int} (h0 : 0 ≤ n) (h : InRange (n * (n - 1) * (2 * n - 1))) :
    pairFactor n = n * (n - 1) := by
  obtain ⟨h1, h2, _, _⟩ := factors_fit h0 h
  unfold pairFactor mul64 sub64
  rw [toInt64_of_inRange h1, toInt64_of_inRange h2]

theorem tripleFactor_eq {n : Int} (h0 : 0 ≤ n) (h : InRange (n * (n - 1) * (2 * n - 1))) :
    tripleFactor n = n * (n - 1) * (2 * n - 1) := by
  obtain ⟨h1, h2, h3, h4⟩ := factors_fit h0 h
  unfold tripleFactor mul64 sub64
  rw [toInt64_of_inRange h1, toInt64_of_inRange h2, toInt64_of_inRange h3,
    toInt64_of_inRange h4, toInt64_of_inRange h]

theorem linCoef_cast (aa ac bb bc i j : Int) :
    ((linCoef aa ac bb bc i j : Int) : ZMod 18446744073709551616)
      = ((aa * bb * i * j + aa * bc * i + ac * bb * j + ac * bc : Int) : ZMod _) := by
  unfold linCoef
  simp only [add64_cast, mul64_cast]
  push_cast
  rfl

theorem quaCoef_cast (aa ab ac ba bb bc i j : Int) :
    ((quaCoef aa ab ac ba bb bc i j : Int) : ZMod 18446744073709551616)
      = ((aa * ba * i + ab * bb * j + ab * bc + ba * ac : Int) : ZMod _) := by
  unfold quaCoef
  simp only [add64_cast, mul64_cast]
  push_cast
  rfl

/-- With both dividends formed without overflow, `qua` is the coefficient term
times `0 + 1 + ... + (n - 1)`. -/
theorem qua_eq (n : Nat) (aa ab ac ba bb bc i j : Int)
    (h : DividendsFit n aa ab ac ba bb bc i j) :
    qua n aa ab ac ba bb bc i j
      = quaCoef aa ab ac ba bb bc i j * sumTo (fun k => (k : Int)) n := by
  obtain ⟨h3, hq, _⟩ := h
  unfold qua quaDividend
  rw [pairFactor_eq (Int.natCast_nonneg n) h3]
  unfold mul64
  rw [toInt64_of_inRange hq, ← sumTo_id_mul_two, ← mul_assoc]
  exact Int.mul_tdiv_cancel _ (by norm_num)

/-- With both dividends formed without overflow, `cub` is `ab * ba` times
`0^2 + 1^2 + ... + (n - 1)^2`. -/
theorem cub_eq (n : Nat) (aa ab ac ba bb bc i j : Int)
    (h : DividendsFit n aa ab ac ba bb bc i j) :
    cub n ab ba = mul64 ab ba * sumTo (fun k => (k : Int) * (k : Int)) n := by
  obtain ⟨h3, _, hc⟩ := h
  unfold cub cubDividend
  rw [tripleFactor_eq (Int.natCast_nonneg n) h3]
  have e : mul64 (mul64 ab ba) ((n : Int) * ((n : Int) - 1) * (2 * (n : Int) - 1))
      = mul64 ab ba * ((n : Int) * ((n : Int) - 1) * (2 * (n : Int) - 1)) :=
    toInt64_of_inRange hc
  rw [e, ← sumTo_sq_mul_six, ← mul_assoc]
  exact Int.mul_tdiv_cancel _ (by norm_num)

/-- The golden value is the wrapped dot product of row `i` of `A` and column `j`
of `B` whenever the two dividends are formed without overflow. -/
theorem golden_eq_sum (n : Nat) (aa ab ac ba bb bc i j : Int)
    (h : DividendsFit n aa ab ac ba bb bc i j) :
    golden n aa ab ac ba bb bc i j
      = toInt64 (sumTo (fun k => (aa * i + ab * k + ac) * (ba * k + bb * j + bc)) n) := by
  unfold golden
  rw [qua_eq n aa ab ac ba bb bc i j h, cub_eq n aa ab ac ba bb bc i j h, sumTo_affine]
  unfold add64
  apply toInt64_congr
  unfold lin
  push_cast
  rw [toInt64_cast]
  push_cast
  rw [mul64_cast, mul64_cast, linCoef_cast, quaCoef_cast]
  push_cast
  ring


/-! ## What `init_matrix` writes -/

theorem init_index_eq {num_columns i j : Nat}
    (h : i * num_columns + j < 18446744073709551616) :
    init_index num_columns i j = i * num_columns + j := by
  unfold init_index
  have h1 : i * num_columns < 18446744073709551616 := by omega
  rw [Nat.mod_eq_of_lt h1, Nat.mod_eq_of_lt h]

theorem init_value_eq (a b c : Int) (i j : Nat) :
    init_value a b c i j = toInt64 (a * i + b * j + c) := by
  unfold init_value add64
  apply toInt64_congr
  push_cast
  rw [toInt64_cast]
  push_cast
  rw [mul64_cast, mul64_cast, toInt64_cast, toInt64_cast]
  push_cast
  ring

theorem init_row_spec (num_columns : Nat) (a b c : Int) (i : Nat) (matrix : Buffer) :
    ∀ cnt : Nat, i * num_columns + cnt ≤ 18446744073709551616 → ∀ k : Nat,
      init_row num_columns a b c i matrix cnt k
        = if i * num_columns ≤ k ∧ k < i * num_columns + cnt
          then init_value a b c i (k - i * num_columns) else matrix k := by
  intro cnt
  induction cnt with
  | zero =>
    intro _ k
    have : ¬ (i * num_columns ≤ k ∧ k < i * num_columns + 0) := by omega
    simp only [init_row, if_neg this]
  | succ cnt ih =>
    intro h k
    simp only [init_row, write]
    rw [init_index_eq (by omega), ih (by omega) k]
    by_cases hk : k = i * num_columns + cnt
    · subst hk
      have e : i * num_columns + cnt - i * num_columns = cnt := by omega
      simp [e]
    · by_cases hr : i * num_columns ≤ k ∧ k < i * num_columns + cnt
      · have hr2 : i * num_columns ≤ k ∧ k < i * num_columns + (cnt + 1) := by omega
        simp only [if_neg hk, if_pos hr, if_pos hr2]
      · have hr2 : ¬ (i * num_columns ≤ k ∧ k < i * num_columns + (cnt + 1)) := by omega
        simp only [if_neg hk, if_neg hr, if_neg hr2]

theorem init_rows_spec (num_columns : Nat) (a b c : Int) (matrix : Buffer) :
    ∀ cnt : Nat, cnt * num_columns ≤ 18446744073709551616 → ∀ k : Nat,
      init_rows num_columns a b c matrix cnt k
        = if k < cnt * num_columns
          then init_value a b c (k / num_columns) (k % num_columns) else matrix k := by
  intro cnt
  induction cnt with
  | zero =>
    intro _ k
    simp [init_rows]
  | succ cnt ih =>
    intro h k
    have e : (cnt + 1) * num_columns = cnt * num_columns + num_columns := Nat.succ_mul _ _
    simp only [init_rows]
    rw [init_row_spec num_columns a b c cnt _ num_columns (by omega) k, ih (by omega) k]
    by_cases hr : cnt * num_columns ≤ k ∧ k < cnt * num_columns + num_columns
    · have hpos : 0 < num_columns := by omega
      have hlt : k - cnt * num_columns < num_columns := by omega
      have hk : k = (k - cnt * num_columns) + cnt * num_columns := by omega
      have hd : k / num_columns = cnt := by
        rw [hk, Nat.add_mul_div_right _ _ hpos, Nat.div_eq_of_lt hlt]; omega
      have hm : k % num_columns = k - cnt * num_columns := by
        rw [hk, Nat.add_mul_mod_self_right, Nat.mod_eq_of_lt hlt]; omega
      have hr2 : k < (cnt + 1) * num_columns := by omega
      rw [if_pos hr, if_pos hr2, hd, hm]
    · rw [if_neg hr]
      by_cases hr3 : k < cnt * num_columns
      · have hr2 : k < (cnt + 1) * num_columns := by omega
        rw [if_pos hr3, if_pos hr2]
      · have hr2 : ¬ k < (cnt + 1) * num_columns := by omega
        rw [if_neg hr3, if_neg hr2]

/-- The cell `(i, j)` of the buffer `init_matrix` leaves. -/
theorem init_matrix_cell (matrix : Buffer) (num_rows num_columns : Nat) (a b c : Int)
    (h : num_rows * num_columns ≤ 18446744073709551616) (i j : Nat)
    (hi : i < num_rows) (hj : j < num_columns) :
    init_matrix matrix num_rows num_columns a b c (i * num_columns + j)
      = toInt64 (a * i + b * j + c) := by
  unfold init_matrix
  rw [init_rows_spec num_columns a b c matrix num_rows h]
  have h1 : (i + 1) * num_columns ≤ num_rows * num_columns :=
    Nat.mul_le_mul_right _ hi
  have e : (i + 1) * num_columns = i * num_columns + num_columns := Nat.succ_mul _ _
  have hlt : i * num_columns + j < num_rows * num_columns := by omega
  have hd : (i * num_columns + j) / num_columns = i := by
    rw [Nat.add_comm, Nat.add_mul_div_right _ _ (by omega), Nat.div_eq_of_lt hj]; omega
  have hm : (i * num_columns + j) % num_columns = j := by
    rw [Nat.add_comm, Nat.add_mul_mod_self_right, Nat.mod_eq_of_lt hj]
  rw [if_pos hlt, hd, hm, init_value_eq]

/-- The cells `init_matrix` does not reach. -/
theorem init_matrix_frame (matrix : Buffer) (num_rows num_columns : Nat) (a b c : Int)
    (h : num_rows * num_columns ≤ 18446744073709551616) (k : Nat)
    (hk : num_rows * num_columns ≤ k) :
    init_matrix matrix num_rows num_columns a b c k = matrix k := by
  unfold init_matrix
  rw [init_rows_spec num_columns a b c matrix num_rows h, if_neg (by omega)]

/-! ## What `verify_matrix` does -/

theorem cell_index_eq {P i j : Nat} (h : i * P + j < 9223372036854775808) :
    cell_index (P : Int) i j = i * P + j := by
  have h1 : InRange ((i : Int) * (P : Int)) := by
    unfold InRange
    have : ((i * P : Nat) : Int) = (i : Int) * (P : Int) := by push_cast; rfl
    constructor <;> omega
  have h2 : InRange ((i : Int) * (P : Int) + (j : Int)) := by
    unfold InRange
    have : ((i * P + j : Nat) : Int) = (i : Int) * (P : Int) + (j : Int) := by push_cast; rfl
    constructor <;> omega
  unfold cell_index add64 mul64
  rw [toInt64_of_inRange h1, toInt64_of_inRange h2]
  have : ((i * P + j : Nat) : Int) = (i : Int) * (P : Int) + (j : Int) := by push_cast; rfl
  omega

theorem toInt32_of_fits {x : Int} (h1 : -2147483648 ≤ x) (h2 : x < 2147483648) :
    toInt32 x = x := by
  unfold toInt32
  rw [Int.emod_eq_of_lt (by omega) (by omega)]
  omega

theorem error_code_eq {P i j : Nat} (hj : j < P) (h : i * P + j < 2147483648) :
    error_code (P : Int) i j = if i = 0 ∧ j = 0 then -1 else ((i * P + j : Nat) : Int) := by
  have e : ((i * P + j : Nat) : Int) = (i : Int) * (P : Int) + (j : Int) := by push_cast; rfl
  have e1 : ((i * P : Nat) : Int) = (i : Int) * (P : Int) := by push_cast; rfl
  have hi : i * 1 ≤ i * P := Nat.mul_le_mul_left i (by omega)
  have h1 : InRange ((i : Int) + (j : Int)) := by
    unfold InRange; constructor <;> omega
  have h2 : InRange ((i : Int) * (P : Int)) := by
    unfold InRange; constructor <;> omega
  have h3 : InRange ((i : Int) * (P : Int) + (j : Int)) := by
    unfold InRange; constructor <;> omega
  unfold error_code add64 mul64
  rw [toInt64_of_inRange h1, toInt64_of_inRange h2, toInt64_of_inRange h3]
  by_cases hz : i = 0 ∧ j = 0
  · have hz2 : (i : Int) + (j : Int) = 0 := by omega
    rw [if_pos hz, if_pos hz2]
    rfl
  · have hz2 : ¬ ((i : Int) + (j : Int) = 0) := by omega
    rw [if_neg hz, if_neg hz2, e]
    exact toInt32_of_fits (by omega) (by omega)

theorem zeroRange_zero (matrix : Buffer) (hi : Nat) :
    zeroRange matrix 0 hi = zeroBelow matrix hi := by
  funext k
  simp [zeroRange, zeroBelow]

theorem verify_cols_pass (n aa ab ac ba bb bc : Int) (P i : Nat)
    (hb : i * P + P ≤ 9223372036854775808) :
    ∀ (cnt j : Nat) (matrix : Buffer), j + cnt = P →
      (∀ j', j ≤ j' → j' < P → matrix (i * P + j') = golden n aa ab ac ba bb bc i j') →
      verify_cols n P aa ab ac ba bb bc i cnt j matrix
        = (none, zeroRange matrix (i * P + j) (i * P + P)) := by
  intro cnt
  induction cnt with
  | zero =>
    intro j matrix hj _
    simp only [verify_cols]
    congr 1
    funext k
    have : ¬ (i * P + j ≤ k ∧ k < i * P + P) := by omega
    simp only [zeroRange, if_neg this]
  | succ cnt ih =>
    intro j matrix hj hm
    simp only [verify_cols]
    rw [cell_index_eq (by omega)]
    have h0 := hm j (le_refl j) (by omega)
    rw [if_neg (by simpa using h0)]
    rw [ih (j + 1) (write matrix (i * P + j) 0) (by omega)]
    · congr 1
      funext k
      simp only [zeroRange, write]
      by_cases hk : k = i * P + j
      · have r1 : i * P + j ≤ k ∧ k < i * P + P := by omega
        have r2 : ¬ (i * P + (j + 1) ≤ k ∧ k < i * P + P) := by omega
        rw [if_pos r1, if_neg r2, if_pos hk]
      · by_cases r1 : i * P + j ≤ k ∧ k < i * P + P
        · have r2 : i * P + (j + 1) ≤ k ∧ k < i * P + P := by omega
          rw [if_pos r1, if_pos r2]
        · have r2 : ¬ (i * P + (j + 1) ≤ k ∧ k < i * P + P) := by omega
          rw [if_neg r1, if_neg r2, if_neg hk]
    · intro j' h1 h2
      have hne : ¬ (i * P + j' = i * P + j) := by omega
      simp only [write, if_neg hne]
      exact hm j' (by omega) h2

theorem verify_cols_fail (n aa ab ac ba bb bc : Int) (P i j1 : Nat)
    (hb : i * P + P ≤ 9223372036854775808) (hj1 : j1 < P) :
    ∀ (cnt j : Nat) (matrix : Buffer), j + cnt = P → j ≤ j1 →
      matrix (i * P + j1) ≠ golden n aa ab ac ba bb bc i j1 →
      (∀ j', j ≤ j' → j' < j1 → matrix (i * P + j') = golden n aa ab ac ba bb bc i j') →
      verify_cols n P aa ab ac ba bb bc i cnt j matrix
        = (some (error_code P i j1), zeroRange matrix (i * P + j) (i * P + j1)) := by
  intro cnt
  induction cnt with
  | zero =>
    intro j matrix hj hle _ _
    omega
  | succ cnt ih =>
    intro j matrix hj hle hbad hm
    simp only [verify_cols]
    rw [cell_index_eq (by omega)]
    by_cases hjj : j = j1
    · subst hjj
      rw [if_pos (by simpa using hbad)]
      congr 1
      funext k
      have : ¬ (i * P + j ≤ k ∧ k < i * P + j) := by omega
      simp only [zeroRange, if_neg this]
    · have h0 := hm j (le_refl j) (by omega)
      rw [if_neg (by simpa using h0)]
      rw [ih (j + 1) (write matrix (i * P + j) 0) (by omega) (by omega)]
      · congr 1
        funext k
        simp only [zeroRange, write]
        by_cases hk : k = i * P + j
        · have r1 : i * P + j ≤ k ∧ k < i * P + j1 := by omega
          have r2 : ¬ (i * P + (j + 1) ≤ k ∧ k < i * P + j1) := by omega
          rw [if_pos r1, if_neg r2, if_pos hk]
        · by_cases r1 : i * P + j ≤ k ∧ k < i * P + j1
          · have r2 : i * P + (j + 1) ≤ k ∧ k < i * P + j1 := by omega
            rw [if_pos r1, if_pos r2]
          · have r2 : ¬ (i * P + (j + 1) ≤ k ∧ k < i * P + j1) := by omega
            rw [if_neg r1, if_neg r2, if_neg hk]
      · have hne : ¬ (i * P + j1 = i * P + j) := by omega
        simp only [write, if_neg hne]
        exact hbad
      · intro j' h1 h2
        have hne : ¬ (i * P + j' = i * P + j) := by omega
        simp only [write, if_neg hne]
        exact hm j' (by omega) h2

theorem row_bound {M P i : Nat} (hi : i < M) (hb : M * P ≤ 9223372036854775808) :
    i * P + P ≤ M * P ∧ i * P + P ≤ 9223372036854775808 := by
  have h1 : (i + 1) * P ≤ M * P := Nat.mul_le_mul_right _ hi
  have e : (i + 1) * P = i * P + P := Nat.succ_mul _ _
  omega

theorem verify_rows_pass (n aa ab ac ba bb bc : Int) (M P : Nat)
    (hb : M * P ≤ 9223372036854775808) :
    ∀ (cnt i : Nat) (matrix : Buffer), i + cnt = M →
      (∀ i' j', i ≤ i' → i' < M → j' < P →
        matrix (i' * P + j') = golden n aa ab ac ba bb bc i' j') →
      verify_rows n P aa ab ac ba bb bc cnt i matrix
        = (none, zeroRange matrix (i * P) (M * P)) := by
  intro cnt
  induction cnt with
  | zero =>
    intro i matrix hi _
    simp only [verify_rows]
    congr 1
    funext k
    have : ¬ (i * P ≤ k ∧ k < M * P) := by
      have : i = M := by omega
      subst this
      omega
    simp only [zeroRange, if_neg this]
  | succ cnt ih =>
    intro i matrix hi hm
    obtain ⟨hr1, hr2⟩ := row_bound (show i < M by omega) hb
    have e : (i + 1) * P = i * P + P := Nat.succ_mul _ _
    simp only [verify_rows, Int.toNat_ofNat]
    rw [verify_cols_pass n aa ab ac ba bb bc P i hr2 P 0 matrix (by omega)
      (fun j' _ h2 => hm i j' (le_refl i) (by omega) h2)]
    simp only []
    rw [ih (i + 1) _ (by omega)]
    · congr 1
      funext k
      simp only [zeroRange]
      by_cases r1 : i * P ≤ k ∧ k < M * P
      · by_cases r2 : (i + 1) * P ≤ k ∧ k < M * P
        · rw [if_pos r1, if_pos r2]
        · have r3 : i * P + 0 ≤ k ∧ k < i * P + P := by omega
          rw [if_pos r1, if_neg r2, if_pos r3]
      · have r2 : ¬ ((i + 1) * P ≤ k ∧ k < M * P) := by omega
        have r3 : ¬ (i * P + 0 ≤ k ∧ k < i * P + P) := by omega
        rw [if_neg r1, if_neg r2, if_neg r3]
    · intro i' j' h1 h2 h3
      have h4 : (i + 1) * P ≤ i' * P := Nat.mul_le_mul_right _ h1
      have r3 : ¬ (i * P + 0 ≤ i' * P + j' ∧ i' * P + j' < i * P + P) := by omega
      simp only [zeroRange, if_neg r3]
      exact hm i' j' (by omega) h2 h3

theorem verify_rows_fail (n aa ab ac ba bb bc : Int) (M P i1 j1 : Nat)
    (hb : M * P ≤ 9223372036854775808) (hi1 : i1 < M) (hj1 : j1 < P) :
    ∀ (cnt i : Nat) (matrix : Buffer), i + cnt = M → i ≤ i1 →
      matrix (i1 * P + j1) ≠ golden n aa ab ac ba bb bc i1 j1 →
      (∀ i' j', i ≤ i' → i' < M → j' < P → i' * P + j' < i1 * P + j1 →
        matrix (i' * P + j') = golden n aa ab ac ba bb bc i' j') →
      verify_rows n P aa ab ac ba bb bc cnt i matrix
        = (some (error_code P i1 j1), zeroRange matrix (i * P) (i1 * P + j1)) := by
  intro cnt
  induction cnt with
  | zero =>
    intro i matrix hi hle _ _
    omega
  | succ cnt ih =>
    intro i matrix hi hle hbad hm
    obtain ⟨hr1, hr2⟩ := row_bound (show i < M by omega) hb
    have e : (i + 1) * P = i * P + P := Nat.succ_mul _ _
    simp only [verify_rows, Int.toNat_ofNat]
    by_cases hii : i = i1
    · subst hii
      rw [verify_cols_fail n aa ab ac ba bb bc P i j1 hr2 hj1 P 0 matrix (by omega)
        (by omega) hbad (fun j' _ h2 => hm i j' (le_refl i) hi1 (by omega) (by omega))]
      simp only [Nat.add_zero]
    · have h4 : (i + 1) * P ≤ i1 * P := Nat.mul_le_mul_right _ (by omega)
      rw [verify_cols_pass n aa ab ac ba bb bc P i hr2 P 0 matrix (by omega)
        (fun j' _ h2 => hm i j' (le_refl i) (by omega) h2 (by omega))]
      simp only []
      rw [ih (i + 1) _ (by omega) (by omega)]
      · congr 1
        funext k
        simp only [zeroRange]
        by_cases r1 : i * P ≤ k ∧ k < i1 * P + j1
        · by_cases r2 : (i + 1) * P ≤ k ∧ k < i1 * P + j1
          · rw [if_pos r1, if_pos r2]
          · have r3 : i * P + 0 ≤ k ∧ k < i * P + P := by omega
            rw [if_pos r1, if_neg r2, if_pos r3]
        · have r2 : ¬ ((i + 1) * P ≤ k ∧ k < i1 * P + j1) := by omega
          have r3 : ¬ (i * P + 0 ≤ k ∧ k < i * P + P) := by omega
          rw [if_neg r1, if_neg r2, if_neg r3]
      · have r3 : ¬ (i * P + 0 ≤ i1 * P + j1 ∧ i1 * P + j1 < i * P + P) := by omega
        simp only [zeroRange, if_neg r3]
        exact hbad
      · intro i' j' h1 h2 h3 h5
        have h6 : (i + 1) * P ≤ i' * P := Nat.mul_le_mul_right _ h1
        have r3 : ¬ (i * P + 0 ≤ i' * P + j' ∧ i' * P + j' < i * P + P) := by omega
        simp only [zeroRange, if_neg r3]
        exact hm i' j' (by omega) h2 h3 h5

/-- All cells match: `verify_matrix` returns `0` and has zeroed the `M * P` cells. -/
theorem verify_matrix_pass (matrix : Buffer) (n aa ab ac ba bb bc : Int) (M P : Nat)
    (hb : M * P ≤ 9223372036854775808)
    (hm : ∀ i j, i < M → j < P →
      matrix (i * P + j) = golden n aa ab ac ba bb bc i j) :
    verify_matrix matrix M n P aa ab ac ba bb bc = (0, zeroBelow matrix (M * P)) := by
  unfold verify_matrix
  simp only [Int.toNat_ofNat]
  rw [verify_rows_pass n aa ab ac ba bb bc M P hb M 0 matrix (by omega)
    (fun i j _ h2 h3 => hm i j h2 h3)]
  simp only [Nat.zero_mul, zeroRange_zero]

/-- The first mismatch is in cell `(i1, j1)`: `verify_matrix` returns its error
code and has zeroed exactly the cells before it. -/
theorem verify_matrix_fail (matrix : Buffer) (n aa ab ac ba bb bc : Int) (M P i1 j1 : Nat)
    (hb : M * P ≤ 9223372036854775808) (hi1 : i1 < M) (hj1 : j1 < P)
    (hbad : matrix (i1 * P + j1) ≠ golden n aa ab ac ba bb bc i1 j1)
    (hm : ∀ i j, i < M → j < P → i * P + j < i1 * P + j1 →
      matrix (i * P + j) = golden n aa ab ac ba bb bc i j) :
    verify_matrix matrix M n P aa ab ac ba bb bc
      = (error_code P i1 j1, zeroBelow matrix (i1 * P + j1)) := by
  unfold verify_matrix
  simp only [Int.toNat_ofNat]
  rw [verify_rows_fail n aa ab ac ba bb bc M P i1 j1 hb hi1 hj1 M 0 matrix (by omega)
    (by omega) hbad (fun i j _ h2 h3 h4 => hm i j h2 h3 h4)]
  simp only [Nat.zero_mul, zeroRange_zero]

/-- A buffer that does not match everywhere has a first mismatching cell. -/
theorem exists_first_mismatch (matrix : Buffer) (G : Nat → Nat → Int) (M P : Nat)
    (h : ¬ ∀ i j, i < M → j < P → matrix (i * P + j) = G i j) :
    ∃ i1 j1, i1 < M ∧ j1 < P ∧ matrix (i1 * P + j1) ≠ G i1 j1 ∧
      ∀ i j, i < M → j < P → i * P + j < i1 * P + j1 → matrix (i * P + j) = G i j := by
  classical
  have hex : ∃ k, ∃ i j, i < M ∧ j < P ∧ k = i * P + j ∧ matrix (i * P + j) ≠ G i j := by
    by_contra hne
    apply h
    intro i j hi hj
    by_contra hbad
    exact hne ⟨i * P + j, i, j, hi, hj, rfl, hbad⟩
  obtain ⟨i1, j1, hi1, hj1, hk, hbad⟩ := Nat.find_spec hex
  refine ⟨i1, j1, hi1, hj1, hbad, ?_⟩
  intro i j hi hj hlt
  by_contra hbad2
  exact Nat.find_min hex (by omega) ⟨i, j, hi, hj, rfl, hbad2⟩

/-- The error code of a cell is not `0`. -/
theorem error_code_ne_zero {M P i j : Nat} (hb : M * P < 2147483648) (hi : i < M)
    (hj : j < P) : error_code (P : Int) i j ≠ 0 := by
  obtain ⟨hr1, _⟩ := row_bound hi (show M * P ≤ 9223372036854775808 by omega)
  rw [error_code_eq hj (by omega)]
  by_cases hz : i = 0 ∧ j = 0
  · rw [if_pos hz]; decide
  · rw [if_neg hz]
    have : i * 1 ≤ i * P := Nat.mul_le_mul_left i (by omega)
    omega

/-- Below `num_rows * num_columns` the buffer `init_matrix` leaves is a function
of the cell index alone. -/
theorem init_matrix_lt (matrix : Buffer) (num_rows num_columns : Nat) (a b c : Int)
    (h : num_rows * num_columns ≤ 18446744073709551616) (k : Nat)
    (hk : k < num_rows * num_columns) :
    init_matrix matrix num_rows num_columns a b c k
      = init_value a b c (k / num_columns) (k % num_columns) := by
  unfold init_matrix
  rw [init_rows_spec num_columns a b c matrix num_rows h, if_pos hk]

/-! ## The driver loop -/

theorem sweep_size_le {k : Nat} (hk : k < 6) : 4 * 2 ^ k ≤ M := by
  unfold M
  interval_cases k <;> norm_num

theorem main_loop_pass (matmul : State → Nat → Nat → Nat → State) (get_timer : Nat → Int)
    (st : State) :
    ∀ (j k fuel : Nat), k + j = 6 → j < fuel →
      (∀ k', k ≤ k' → k' < 6 → error_at matmul st k' = 0) →
      main_loop matmul get_timer fuel (4 * 2 ^ k) (state_at matmul st k)
          (events_upto matmul get_timer st k)
        = some (0, state_at matmul st 6, events_upto matmul get_timer st 6) := by
  intro j
  induction j with
  | zero =>
    intro k fuel hk hf _
    obtain ⟨f, rfl⟩ : ∃ f, fuel = f + 1 := ⟨fuel - 1, by omega⟩
    have hk6 : k = 6 := by omega
    subst hk6
    simp [main_loop, M]
  | succ j ih =>
    intro k fuel hk hf hz
    obtain ⟨f, rfl⟩ : ∃ f, fuel = f + 1 := ⟨fuel - 1, by omega⟩
    have hs : 4 * 2 ^ k ≤ M := sweep_size_le (by omega)
    have he : (iteration matmul (4 * 2 ^ k) (state_at matmul st k)).1 = 0 :=
      hz k (le_refl k) (by omega)
    have h2 : 4 * 2 ^ k * 2 = 4 * 2 ^ (k + 1) := by rw [pow_succ]; ring
    rw [main_loop]
    simp only [if_pos hs, he, ne_eq, not_true_eq_false, if_false, h2]
    have := ih (k + 1) f (by omega) (by omega) (fun k' h1 h2 => hz k' (by omega) h2)
    simpa only [state_at, events_upto, error_at, he] using this

theorem main_loop_fail (matmul : State → Nat → Nat → Nat → State) (get_timer : Nat → Int)
    (st : State) (k0 : Nat) (hk0 : k0 < 6) (hbad : error_at matmul st k0 ≠ 0) :
    ∀ (j k fuel : Nat), k + j = k0 → j < fuel →
      (∀ k', k ≤ k' → k' < k0 → error_at matmul st k' = 0) →
      main_loop matmul get_timer fuel (4 * 2 ^ k) (state_at matmul st k)
          (events_upto matmul get_timer st k)
        = some (error_at matmul st k0, state_at matmul st (k0 + 1),
            events_upto matmul get_timer st (k0 + 1)) := by
  intro j
  induction j with
  | zero =>
    intro k fuel hk hf _
    obtain ⟨f, rfl⟩ : ∃ f, fuel = f + 1 := ⟨fuel - 1, by omega⟩
    have hkk : k = k0 := by omega
    subst hkk
    have hs : 4 * 2 ^ k ≤ M := sweep_size_le hk0
    have he : (iteration matmul (4 * 2 ^ k) (state_at matmul st k)).1 ≠ 0 := hbad
    rw [main_loop]
    simp only [if_pos hs, if_pos he]
    rfl
  | succ j ih =>
    intro k fuel hk hf hz
    obtain ⟨f, rfl⟩ : ∃ f, fuel = f + 1 := ⟨fuel - 1, by omega⟩
    have hs : 4 * 2 ^ k ≤ M := sweep_size_le (by omega)
    have he : (iteration matmul (4 * 2 ^ k) (state_at matmul st k)).1 = 0 :=
      hz k (le_refl k) (by omega)
    have h2 : 4 * 2 ^ k * 2 = 4 * 2 ^ (k + 1) := by rw [pow_succ]; ring
    rw [main_loop]
    simp only [if_pos hs, he, ne_eq, not_true_eq_false, if_false, h2]
    have := ih (k + 1) f (by omega) (by omega) (fun k' h1 h2 => hz k' (by omega) h2)
    simpa only [state_at, events_upto, error_at, he] using this

/-- Every size of the sweep passes: `main` returns `0` after the six sizes. -/
theorem main_pass (matmul : State → Nat → Nat → Nat → State) (get_timer : Nat → Int)
    (st : State) (hz : ∀ k, k < 6 → error_at matmul st k = 0) :
    main matmul get_timer st
      = some (0, state_at matmul st 6, events_upto matmul get_timer st 6) := by
  have := main_loop_pass matmul get_timer st 6 0 7 (by omega) (by omega)
    (fun k' _ h2 => hz k' h2)
  simpa [main, state_at, events_upto] using this

/-- The size number `k0` is the first to fail: `main` returns its error. -/
theorem main_fail (matmul : State → Nat → Nat → Nat → State) (get_timer : Nat → Int)
    (st : State) (k0 : Nat) (hk0 : k0 < 6) (hbad : error_at matmul st k0 ≠ 0)
    (hz : ∀ k, k < k0 → error_at matmul st k = 0) :
    main matmul get_timer st
      = some (error_at matmul st k0, state_at matmul st (k0 + 1),
          events_upto matmul get_timer st (k0 + 1)) := by
  have := main_loop_fail matmul get_timer st k0 hk0 hbad k0 0 7 (by omega) (by omega)
    (fun k' _ h2 => hz k' h2)
  simpa [main, state_at, events_upto] using this

/-! ## The kernel contract on the generated matrices -/

theorem dot64_inRange (A B : Buffer) (n p i j cnt : Nat) :
    InRange (dot64 A B n p i j cnt) := by
  cases cnt with
  | zero => simp only [dot64]; decide
  | succ k => simp only [dot64]; exact toInt64_inRange _

theorem dot64_cast (A B : Buffer) (n p i j : Nat) (f : Nat → Int) (cnt : Nat)
    (hf : ∀ k, k < cnt →
      ((A (i * n + k) * B (k * p + j) : Int) : ZMod 18446744073709551616)
        = ((f k : Int) : ZMod 18446744073709551616)) :
    ((dot64 A B n p i j cnt : Int) : ZMod 18446744073709551616)
      = ((sumTo f cnt : Int) : ZMod 18446744073709551616) := by
  induction cnt with
  | zero => simp [dot64, sumTo]
  | succ k ih =>
    simp only [dot64, sumTo]
    rw [add64_cast, mul64_cast, ih (fun k' hk' => hf k' (by omega))]
    have := hf k (by omega)
    push_cast at this ⊢
    rw [this]

/-- The product cell `(i, j)` of the two matrices `init_matrix` generates is the
wrapped dot product of the affine entries. -/
theorem matmul_ref_init (bufA bufB : Buffer) (aa ab ac ba bb bc : Int) (m n p i j : Nat)
    (hA : m * n ≤ 18446744073709551616) (hB : n * p ≤ 18446744073709551616)
    (hi : i < m) (hj : j < p) :
    matmul_ref (init_matrix bufA m n aa ab ac) (init_matrix bufB n p ba bb bc) n p i j
      = row_col_dot n aa ab ac ba bb bc i j := by
  unfold matmul_ref row_col_dot
  rw [← toInt64_of_inRange (dot64_inRange _ _ n p i j n)]
  apply toInt64_congr
  apply dot64_cast
  intro k hk
  rw [init_matrix_cell bufA m n aa ab ac hA i k hi hk,
    init_matrix_cell bufB n p ba bb bc hB k j hk hj]
  push_cast
  rw [toInt64_cast, toInt64_cast]
  push_cast
  rfl

/-- On the exact product of the generated matrices `verify_matrix` returns `0`
and zeroes the cells, provided the dividends of every cell are formed without
overflow. -/
theorem verify_matrix_product (bufA bufB out : Buffer) (aa ab ac ba bb bc : Int)
    (m n p : Nat) (hA : m * n ≤ 18446744073709551616) (hB : n * p ≤ 18446744073709551616)
    (hC : m * p ≤ 9223372036854775808)
    (hfit : ∀ i, i < m → ∀ j, j < p → DividendsFit n aa ab ac ba bb bc i j)
    (hout : ∀ i, i < m → ∀ j, j < p →
      out (i * p + j)
        = matmul_ref (init_matrix bufA m n aa ab ac) (init_matrix bufB n p ba bb bc) n p i j) :
    verify_matrix out m n p aa ab ac ba bb bc = (0, zeroBelow out (m * p)) := by
  apply verify_matrix_pass out n aa ab ac ba bb bc m p hC
  intro i j hi hj
  rw [hout i hi j hj, matmul_ref_init bufA bufB aa ab ac ba bb bc m n p i j hA hB hi hj,
    golden_eq_sum n aa ab ac ba bb bc i j (hfit i hi j hj)]
  rfl

/-- For the configured coefficients and dimensions up to `128` the dividends
are formed without overflow. -/
theorem config_fits (n i j : Nat) (hn : n ≤ 128) (hi : i < 128) (hj : j < 128) :
    DividendsFit n A_a A_b A_c B_a B_b B_c i j := by
  have hq : quaCoef A_a A_b A_c B_a B_b B_c i j = 2 * (i : Int) + (j : Int) - 48 := by
    have e1 : mul64 (mul64 A_a B_a) i = 2 * (i : Int) := by
      rw [show mul64 A_a B_a = 2 from by decide]
      exact toInt64_of_inRange ⟨by omega, by omega⟩
    have e2 : mul64 (mul64 A_b B_b) j = (j : Int) := by
      rw [show mul64 A_b B_b = 1 from by decide, mul64, one_mul]
      exact toInt64_of_inRange ⟨by omega, by omega⟩
    have e3 : mul64 A_b B_c = 16 := by decide
    have e4 : mul64 B_a A_c = -64 := by decide
    unfold quaCoef
    rw [e1, e2, e3, e4]
    unfold add64
    rw [toInt64_of_inRange (x := 2 * (i : Int) + (j : Int)) ⟨by omega, by omega⟩,
      toInt64_of_inRange (x := 2 * (i : Int) + (j : Int) + 16) ⟨by omega, by omega⟩,
      toInt64_of_inRange (x := 2 * (i : Int) + (j : Int) + 16 + -64) ⟨by omega, by omega⟩]
    ring
  have hc : mul64 A_b B_a = 2 := by decide
  have hn0 : (0 : Int) ≤ n := Int.natCast_nonneg n
  have hn1 : (n : Int) ≤ 128 := by exact_mod_cast hn
  have hi0 : (0 : Int) ≤ i := Int.natCast_nonneg i
  have hi1 : (i : Int) ≤ 127 := by omega
  have hj0 : (0 : Int) ≤ j := Int.natCast_nonneg j
  have hj1 : (j : Int) ≤ 127 := by omega
  have t2 : 0 ≤ (n : Int) * ((n : Int) - 1) ∧ (n : Int) * ((n : Int) - 1) ≤ 16256 := by
    have : ((n * (n - 1) : Nat) : Int) = (n : Int) * ((n : Int) - 1) := by
      cases n with
      | zero => simp
      | succ k => push_cast; simp
    have h2 : n * (n - 1) ≤ 128 * 127 := Nat.mul_le_mul hn (by omega)
    omega
  have t3 : 0 ≤ (n : Int) * ((n : Int) - 1) * (2 * (n : Int) - 1) ∧
      (n : Int) * ((n : Int) - 1) * (2 * (n : Int) - 1) ≤ 4145280 := by
    rcases Nat.eq_zero_or_pos n with h0 | h0
    · subst h0; norm_num
    · have h1 : (1 : Int) ≤ n := by exact_mod_cast h0
      constructor
      · apply mul_nonneg t2.1; omega
      · calc (n : Int) * ((n : Int) - 1) * (2 * (n : Int) - 1)
            ≤ 16256 * (2 * (n : Int) - 1) := mul_le_mul_of_nonneg_right t2.2 (by omega)
          _ ≤ 4145280 := by omega
  unfold DividendsFit
  rw [hq, hc]
  refine ⟨⟨by omega, by omega⟩, ⟨?_, ?_⟩, ⟨by omega, by omega⟩⟩
  · have : -48 * ((n : Int) * ((n : Int) - 1))
        ≤ (2 * (i : Int) + (j : Int) - 48) * ((n : Int) * ((n : Int) - 1)) :=
      mul_le_mul_of_nonneg_right (by omega) t2.1
    omega
  · have : (2 * (i : Int) + (j : Int) - 48) * ((n : Int) * ((n : Int) - 1))
        ≤ 400 * ((n : Int) * ((n : Int) - 1)) :=
      mul_le_mul_of_nonneg_right (by omega) t2.1
    omega

/-! ## Evaluation without overflow -/

theorem checked_bind {x : Int} {f : Int → Option Int} {g : Int} :
    (checked x >>= f) = some g ↔ InRange x ∧ f x = some g := by
  unfold checked
  by_cases h : InRange x <;> simp [h]

theorem checked_some {x g : Int} : checked x = some g ↔ InRange x ∧ x = g := by
  unfold checked
  by_cases h : InRange x <;> simp [h]

theorem lin_checked_some {n aa ac bb bc i j l : Int}
    (h : lin_checked n aa ac bb bc i j = some l) :
    lin n aa ac bb bc i j = l ∧
      l = (aa * bb * i * j + aa * bc * i + ac * bb * j + ac * bc) * n := by
  simp only [lin_checked, bind_pure_comp, Option.bind_eq_bind, checked_bind, checked_some,
    ← Option.bind_eq_bind] at h
  obtain ⟨h1, h2, h3, h4, h5, h6, h7, h8, h9, h10, h11, h12, rfl⟩ := h
  refine ⟨?_, rfl⟩
  simp only [lin, linCoef, mul64, add64, toInt64_of_inRange h1, toInt64_of_inRange h2,
    toInt64_of_inRange h3, toInt64_of_inRange h4, toInt64_of_inRange h5,
    toInt64_of_inRange h6, toInt64_of_inRange h7, toInt64_of_inRange h8,
    toInt64_of_inRange h9, toInt64_of_inRange h10, toInt64_of_inRange h11,
    toInt64_of_inRange h12]

theorem quaDividend_checked_some {n aa ab ac ba bb bc i j q : Int}
    (h : quaDividend_checked n aa ab ac ba bb bc i j = some q) :
    quaDividend n aa ab ac ba bb bc i j = q ∧
      q = (aa * ba * i + ab * bb * j + ab * bc + ba * ac) * (n * (n - 1)) := by
  simp only [quaDividend_checked, bind_pure_comp, Option.bind_eq_bind, checked_bind,
    checked_some, ← Option.bind_eq_bind] at h
  obtain ⟨h1, h2, h3, h4, h5, h6, h7, h8, h9, h10, h11, h12, rfl⟩ := h
  refine ⟨?_, rfl⟩
  simp only [quaDividend, quaCoef, pairFactor, mul64, add64, sub64, toInt64_of_inRange h1,
    toInt64_of_inRange h2, toInt64_of_inRange h3, toInt64_of_inRange h4,
    toInt64_of_inRange h5, toInt64_of_inRange h6, toInt64_of_inRange h7,
    toInt64_of_inRange h8, toInt64_of_inRange h9, toInt64_of_inRange h10,
    toInt64_of_inRange h11, toInt64_of_inRange h12]

theorem cubDividend_checked_some {n ab ba c : Int}
    (h : cubDividend_checked n ab ba = some c) :
    cubDividend n ab ba = c ∧ c = (ab * ba) * (n * (n - 1) * (2 * n - 1)) := by
  simp only [cubDividend_checked, bind_pure_comp, Option.bind_eq_bind, checked_bind,
    checked_some, ← Option.bind_eq_bind] at h
  obtain ⟨h1, h2, h3, h4, h5, h6, h7, rfl⟩ := h
  refine ⟨?_, rfl⟩
  simp only [cubDividend, tripleFactor, mul64, sub64, toInt64_of_inRange h1,
    toInt64_of_inRange h2, toInt64_of_inRange h3, toInt64_of_inRange h4,
    toInt64_of_inRange h5, toInt64_of_inRange h6, toInt64_of_inRange h7]

/-- When no intermediate result overflows, the golden value is the value of the
closed form over the integers, which is the exact dot product. -/
theorem golden_checked_some {n : Nat} {aa ab ac ba bb bc i j g : Int}
    (h : golden_checked n aa ab ac ba bb bc i j = some g) :
    golden n aa ab ac ba bb bc i j = g ∧ InRange g ∧
      g = sumTo (fun k => (aa * i + ab * k + ac) * (ba * k + bb * j + bc)) n := by
  simp only [golden_checked, bind_pure_comp, Option.bind_eq_bind, Option.bind_eq_some,
    checked_some] at h
  obtain ⟨l, hl, q, hq, c, hc, s, ⟨hs, rfl⟩, hg, rfl⟩ := h
  obtain ⟨hl1, hl2⟩ := lin_checked_some hl
  obtain ⟨hq1, hq2⟩ := quaDividend_checked_some hq
  obtain ⟨hc1, hc2⟩ := cubDividend_checked_some hc
  refine ⟨?_, hg, ?_⟩
  · simp only [golden, qua, cub, hl1, hq1, hc1, add64, toInt64_of_inRange hs,
      toInt64_of_inRange hg]
  · have e2 : Int.tdiv q 2
        = (aa * ba * i + ab * bb * j + ab * bc + ba * ac) * sumTo (fun k => (k : Int)) n := by
      rw [hq2, ← sumTo_id_mul_two, ← mul_assoc]
      exact Int.mul_tdiv_cancel _ (by norm_num)
    have e6 : Int.tdiv c 6 = (ab * ba) * sumTo (fun k => (k : Int) * (k : Int)) n := by
      rw [hc2, ← sumTo_sq_mul_six, ← mul_assoc]
      exact Int.mul_tdiv_cancel _ (by norm_num)
    rw [e2, e6, hl2, sumTo_affine]

/-- With all coefficients and `n` zero the golden value is zero. -/
theorem golden_zero (i j : Int) : golden 0 0 0 0 0 0 0 i j = 0 := by
  simp [golden, lin, qua, cub, linCoef, quaDividend, cubDividend, quaCoef, pairFactor,
    tripleFactor, add64, mul64, sub64, toInt64]

/-! ## Termination and bounds of the driver loop -/

/-- Any fuel from `7` on gives the result of `main`. -/
theorem main_loop_any_fuel (matmul : State → Nat → Nat → Nat → State)
    (get_timer : Nat → Int) (st : State) (fuel : Nat) (hf : 7 ≤ fuel) :
    main_loop matmul get_timer fuel 4 st [] = main matmul get_timer st := by
  by_cases hz : ∀ k, k < 6 → error_at matmul st k = 0
  · rw [main_pass matmul get_timer st hz]
    have := main_loop_pass matmul get_timer st 6 0 fuel (by omega) (by omega)
      (fun k' _ h2 => hz k' h2)
    simpa [state_at, events_upto] using this
  · classical
    have hex : ∃ k, k < 6 ∧ error_at matmul st k ≠ 0 := by
      by_contra hne
      apply hz
      intro k hk
      by_contra hbad
      exact hne ⟨k, hk, hbad⟩
    obtain ⟨hk0, hbad⟩ := Nat.find_spec hex
    have hmin : ∀ k, k < Nat.find hex → error_at matmul st k = 0 := by
      intro k hk
      by_contra hbad2
      exact Nat.find_min hex hk ⟨by omega, hbad2⟩
    rw [main_fail matmul get_timer st (Nat.find hex) hk0 hbad hmin]
    have := main_loop_fail matmul get_timer st (Nat.find hex) hk0 hbad (Nat.find hex) 0 fuel
      (by omega) (by omega) (fun k' _ h2 => hmin k' h2)
    simpa [state_at, events_upto] using this

/-- `verify_matrix` writes no cell from `M * P` on, whatever it returns. -/
theorem verify_matrix_frame (matrix : Buffer) (n aa ab ac ba bb bc : Int) (M P : Nat)
    (hb : M * P ≤ 9223372036854775808) (k : Nat) (hk : M * P ≤ k) :
    (verify_matrix matrix M n P aa ab ac ba bb bc).2 k = matrix k := by
  by_cases hall : ∀ i j, i < M → j < P →
      matrix (i * P + j) = golden n aa ab ac ba bb bc i j
  · rw [verify_matrix_pass matrix n aa ab ac ba bb bc M P hb hall]
    simp only [zeroBelow, if_neg (not_lt.mpr hk)]
  · obtain ⟨i1, j1, hi1, hj1, hbad, hm⟩ :=
      exists_first_mismatch matrix (fun i j => golden n aa ab ac ba bb bc i j) M P hall
    obtain ⟨hr1, _⟩ := row_bound hi1 hb
    rw [verify_matrix_fail matrix n aa ab ac ba bb bc M P i1 j1 hb hi1 hj1 hbad hm]
    have : ¬ k < i1 * P + j1 := by omega
    simp only [zeroBelow, if_neg this]

/-- The cells of an `s x s` matrix have an index below `s * s`. -/
theorem index_lt_square {s i j : Nat} (hi : i < s) (hj : j < s) : i * s + j < s * s := by
  have h1 : (i + 1) * s ≤ s * s := Nat.mul_le_mul_right _ hi
  have e : (i + 1) * s = i * s + s := Nat.succ_mul _ _
  omega

/-- With a kernel that delivers the exact product every size of the sweep passes. -/
theorem exact_kernel_passes (st : State) (k : Nat) (hk : k < 6) :
    error_at exact_kernel st k = 0 := by
  have hs : 4 * 2 ^ k ≤ 128 := sweep_size_le hk
  have hsq : 4 * 2 ^ k * (4 * 2 ^ k) ≤ 128 * 128 := Nat.mul_le_mul hs hs
  simp only [error_at, iteration]
  rw [verify_matrix_product (state_at exact_kernel st k).a (state_at exact_kernel st k).b _
    A_a A_b A_c B_a B_b B_c (4 * 2 ^ k) (4 * 2 ^ k) (4 * 2 ^ k) (by omega) (by omega)
    (by omega) (fun i hi j hj => config_fits _ i j hs (by omega) (by omega))]
  intro i hi j hj
  have hlt : i * (4 * 2 ^ k) + j < 4 * 2 ^ k * (4 * 2 ^ k) := index_lt_square hi hj
  have hd : (i * (4 * 2 ^ k) + j) / (4 * 2 ^ k) = i := by
    rw [Nat.add_comm, Nat.add_mul_div_right _ _ (by omega), Nat.div_eq_of_lt hj]; omega
  have hm : (i * (4 * 2 ^ k) + j) % (4 * 2 ^ k) = j := by
    rw [Nat.add_comm, Nat.add_mul_mod_self_right, Nat.mod_eq_of_lt hj]
  simp only [exact_kernel, if_pos hlt, hd, hm]

/-! ## Exactness of the two divisions -/

theorem toInt64_even (x : Int) : Even (toInt64 x) ↔ Even x := by
  rw [Int.even_iff, Int.even_iff]
  unfold toInt64
  omega

theorem pairFactor_even (n : Int) : Even (pairFactor n) := by
  unfold pairFactor mul64 sub64
  rw [toInt64_even, Int.even_mul, toInt64_even, Int.even_sub_one]
  exact em _

/-- The product `n * (n - 1) * (2 * n - 1)` of a natural number is `6` times the
sum of the squares below `n`; for a negative `n` it is the negative of the
product at `1 - n`. -/
theorem six_dvd_triple (n : Int) : (6 : Int) ∣ n * (n - 1) * (2 * n - 1) := by
  rcases le_or_lt 0 n with h | h
  · obtain ⟨k, rfl⟩ := Int.eq_ofNat_of_zero_le h
    rw [← sumTo_sq_mul_six]
    exact Dvd.intro_left _ rfl
  · obtain ⟨k, hk⟩ := Int.eq_ofNat_of_zero_le (show (0 : Int) ≤ 1 - n by omega)
    have e : n * (n - 1) * (2 * n - 1)
        = -((k : Int) * ((k : Int) - 1) * (2 * (k : Int) - 1)) := by
      rw [← hk]; ring
    rw [e, ← sumTo_sq_mul_six]
    exact (Dvd.intro_left _ rfl).neg_right

theorem two_dvd_pair (n : Int) : (2 : Int) ∣ n * (n - 1) := by
  have : Even (n * (n - 1)) := by
    rw [Int.even_mul, Int.even_sub_one]
    exact em _
  exact even_iff_two_dvd.mp this

/-- The factors of `n * (n - 1) * (2 * n - 1)` fit `int64_t` when the product
does, for a negative `n` as well. -/
theorem factors_fit_int {n : Int} (h : InRange (n * (n - 1) * (2 * n - 1))) :
    InRange (n - 1) ∧ InRange (n * (n - 1)) ∧ InRange (2 * n) ∧ InRange (2 * n - 1) := by
  rcases le_or_lt 0 n with h0 | h0
  · exact factors_fit h0 h
  · unfold InRange at *
    have h1 : n ≤ -1 := by omega
    have p3 : 2 ≤ n * (n - 1) := by nlinarith
    have k1 : n * (n - 1) * (2 * n - 1) ≤ 2 * n - 1 := by nlinarith
    have k2 : n * (n - 1) * (2 * n - 1) ≤ -(3 * (n * (n - 1))) := by nlinarith
    refine ⟨⟨?_, ?_⟩, ⟨?_, ?_⟩, ⟨?_, ?_⟩, ⟨?_, ?_⟩⟩ <;> linarith [h.1, h.2]

theorem pairFactor_eq_int {n : Int} (h : InRange (n * (n - 1) * (2 * n - 1))) :
    pairFactor n = n * (n - 1) := by
  obtain ⟨h1, h2, _, _⟩ := factors_fit_int h
  unfold pairFactor mul64 sub64
  rw [toInt64_of_inRange h1, toInt64_of_inRange h2]

theorem tripleFactor_eq_int {n : Int} (h : InRange (n * (n - 1) * (2 * n - 1))) :
    tripleFactor n = n * (n - 1) * (2 * n - 1) := by
  obtain ⟨h1, h2, h3, h4⟩ := factors_fit_int h
  unfold tripleFactor mul64 sub64
  rw [toInt64_of_inRange h1, toInt64_of_inRange h2, toInt64_of_inRange h3,
    toInt64_of_inRange h4, toInt64_of_inRange h]

/-- A product that fits `int64_t` still fits when a factor is replaced by an
exact quotient of it. -/
theorem inRange_of_mul {x h : Int} (c : Int) (hc : 1 ≤ c) (hx : InRange (x * (h * c))) :
    InRange (x * h) := by
  unfold InRange at *
  have e : x * (h * c) = x * h * c := by ring
  rw [e] at hx
  rcases le_or_lt 0 (x * h) with hp | hp
  · have : x * h ≤ x * h * c := by nlinarith
    constructor <;> linarith [hx.1, hx.2]
  · have : x * h * c ≤ x * h := by nlinarith
    constructor <;> linarith [hx.1, hx.2]

/-! ## The claims -/

/-- C1, as stated, fails.  For the coefficients `A = (1, 0, 0)`, `B = (1, 0, 0)`,
`n = 2` and the cell `(0, 0)` the golden value is `0` while the sum of the
specification, in which `Aa` multiplies `k`, is `1`; and for
`A = (2^62, 2^62, 0)`, `B = (0, 0, 1)`, where both readings of the sum agree,
the dividend of `qua` overflows before it is halved and the golden value
`-2^62` differs from the sum `2^62`. -/
theorem golden_ne_spec_dot :
    golden 2 1 0 0 1 0 0 0 0 = 0 ∧ spec_dot 2 1 0 0 1 0 0 0 0 = 1 ∧
    golden 2 4611686018427387904 4611686018427387904 0 0 0 1 0 0 = -4611686018427387904 ∧
    spec_dot 2 4611686018427387904 4611686018427387904 0 0 0 1 0 0 = 4611686018427387904 ∧
    row_col_dot 2 4611686018427387904 4611686018427387904 0 0 0 1 0 0
      = 4611686018427387904 := by
  decide

/-- C1, amended: for all coefficients, every shared dimension `n ≥ 0` and every
cell `(i, j)` for which `n * (n - 1) * (2 * n - 1)` and the two dividends are
formed without overflow, the golden value of `verify_matrix` equals
`Σ_{k<n} (Aa·i + Ab·k + Ac)·(Ba·k + Bb·j + Bc) mod 2^64`, the dot product of
row `i` of `A` and column `j` of `B` as `init_matrix` generates them. -/
theorem golden_eq_row_col_dot (n : Nat) (aa ab ac ba bb bc i j : Int)
    (h : DividendsFit n aa ab ac ba bb bc i j) :
    golden n aa ab ac ba bb bc i j = row_col_dot n aa ab ac ba bb bc i j :=
  golden_eq_sum n aa ab ac ba bb bc i j h

/-- C1, amended, at coefficients for which `lin` wraps around. -/
theorem golden_eq_row_col_dot_witness :
    DividendsFit (3 : Nat) 4611686018427387904 1 5 4 1 2 1 1 ∧
    golden (3 : Nat) 4611686018427387904 1 5 4 1 2 1 1
      = row_col_dot 3 4611686018427387904 1 5 4 1 2 1 1 :=
  ⟨by decide, golden_eq_row_col_dot 3 4611686018427387904 1 5 4 1 2 1 1 (by decide)⟩

/-- C2, as stated, fails: `overflow_out` is the exact `1 x 1` product of the
matrices `init_matrix` writes for `(m, n) = (1, 2)`, `A = (0, 2^62, 0)` and
`(n, p) = (2, 1)`, `B = (0, 0, 1)`, and `verify_matrix` returns `-1` on it and
leaves the cell non-zero. -/
theorem verify_matrix_rejects_product :
    (∀ i, i < 1 → ∀ j, j < 1 →
      overflow_out (i * 1 + j)
        = matmul_ref (init_matrix (fun _ => 0) 1 2 0 4611686018427387904 0)
            (init_matrix (fun _ => 0) 2 1 0 0 1) 2 1 i j) ∧
    (verify_matrix overflow_out 1 2 1 0 4611686018427387904 0 0 0 1).1 = -1 ∧
    (verify_matrix overflow_out 1 2 1 0 4611686018427387904 0 0 0 1).2 0
      = 4611686018427387904 := by
  decide

/-- C2, amended: for all coefficient sets and all dimensions `m, n, p ≤ 128` such
that the two dividends of every cell are formed without overflow: if `A` and `B`
are the buffers `init_matrix` writes for `(m, n, Aa, Ab, Ac)` and
`(n, p, Ba, Bb, Bc)` and `out[i*p+j] = Σ_{k<n} A[i*n+k]·B[k*p+j]` in 64-bit
wraparound arithmetic for every `i < m`, `j < p`, then `verify_matrix` returns `0`
and afterwards every one of the `m * p` cells of `out` is `0`. -/
theorem verify_matrix_accepts_product (bufA bufB out : Buffer) (aa ab ac ba bb bc : Int)
    (m n p : Nat) (hm : m ≤ 128) (hn : n ≤ 128) (hp : p ≤ 128)
    (hfit : ∀ i, i < m → ∀ j, j < p → DividendsFit n aa ab ac ba bb bc i j)
    (hout : ∀ i, i < m → ∀ j, j < p →
      out (i * p + j)
        = matmul_ref (init_matrix bufA m n aa ab ac) (init_matrix bufB n p ba bb bc) n p i j) :
    (verify_matrix out m n p aa ab ac ba bb bc).1 = 0 ∧
    ∀ k, k < m * p → (verify_matrix out m n p aa ab ac ba bb bc).2 k = 0 := by
  have hA : m * n ≤ 128 * 128 := Nat.mul_le_mul hm hn
  have hB : n * p ≤ 128 * 128 := Nat.mul_le_mul hn hp
  have hC : m * p ≤ 128 * 128 := Nat.mul_le_mul hm hp
  rw [verify_matrix_product bufA bufB out aa ab ac ba bb bc m n p (by omega) (by omega)
    (by omega) hfit hout]
  refine ⟨rfl, ?_⟩
  intro k hk
  simp only [zeroBelow, if_pos hk]

/-- C2, amended, on a `2 x 2` product with the configured coefficients. -/
theorem verify_matrix_accepts_product_witness :
    (verify_matrix (exact_kernel ⟨init_matrix (fun _ => 0) 2 2 1 1 (-32),
        init_matrix (fun _ => 0) 2 2 2 1 16, fun _ => 0⟩ 2 2 2).c
      (2 : Nat) (2 : Nat) (2 : Nat) 1 1 (-32) 2 1 16).1 = 0 :=
  (verify_matrix_accepts_product (fun _ => 0) (fun _ => 0)
    (exact_kernel ⟨init_matrix (fun _ => 0) 2 2 1 1 (-32),
      init_matrix (fun _ => 0) 2 2 2 1 16, fun _ => 0⟩ 2 2 2).c
    1 1 (-32) 2 1 16 2 2 2 (by decide) (by decide) (by decide)
    (by intro i hi j hj; interval_cases i <;> interval_cases j <;> decide)
    (by intro i hi j hj; interval_cases i <;> interval_cases j <;> rfl)).1

/-- C3: over the unbounded integers, for all coefficients, every `N ≥ 0` and all
`i`, `j`, with `a(i,k) = A_a*i + A_b*k + A_c` and `b(k,j) = B_a*k + B_b*j + B_c`,
the product entry `Σ_{k<N} a(i,k) * b(k,j)` equals the closed form of lines 37-39,
both divisions being exact.  Consequently, whenever no intermediate product, sum
or difference of `lin`, `qua` and `cub` leaves the `int64_t` range, the golden
value of `verify_matrix` is exactly that product entry, and it is the cell
`(i, j)` of the product of the two matrices `init_matrix` generates. -/
theorem closed_form_exact (aa ab ac ba bb bc : Int) (n : Nat) :
    (∀ i j : Int,
      (2 : Int) ∣ (aa * ba * i + ab * bb * j + ab * bc + ba * ac)
        * ((n : Int) * ((n : Int) - 1)) ∧
      (6 : Int) ∣ (ab * ba) * ((n : Int) * ((n : Int) - 1) * (2 * (n : Int) - 1)) ∧
      sumTo (fun k => (aa * i + ab * k + ac) * (ba * k + bb * j + bc)) n
        = (aa * bb * i * j + aa * bc * i + ac * bb * j + ac * bc) * n
          + Int.tdiv ((aa * ba * i + ab * bb * j + ab * bc + ba * ac)
              * ((n : Int) * ((n : Int) - 1))) 2
          + Int.tdiv ((ab * ba) * ((n : Int) * ((n : Int) - 1) * (2 * (n : Int) - 1))) 6) ∧
    (∀ (i j : Nat) (g : Int), golden_checked n aa ab ac ba bb bc i j = some g →
      golden n aa ab ac ba bb bc i j = g ∧
      g = sumTo (fun k => (aa * i + ab * k + ac) * (ba * k + bb * j + bc)) n ∧
      ∀ (bufA bufB : Buffer) (m p : Nat), m * n ≤ 18446744073709551616 →
        n * p ≤ 18446744073709551616 → i < m → j < p →
        matmul_ref (init_matrix bufA m n aa ab ac) (init_matrix bufB n p ba bb bc) n p i j
          = g) := by
  constructor
  · intro i j
    have e2 : (aa * ba * i + ab * bb * j + ab * bc + ba * ac) * ((n : Int) * ((n : Int) - 1))
        = (aa * ba * i + ab * bb * j + ab * bc + ba * ac) * sumTo (fun k => (k : Int)) n * 2 := by
      rw [← sumTo_id_mul_two]; ring
    have e6 : (ab * ba) * ((n : Int) * ((n : Int) - 1) * (2 * (n : Int) - 1))
        = (ab * ba) * sumTo (fun k => (k : Int) * (k : Int)) n * 6 := by
      rw [← sumTo_sq_mul_six]; ring
    refine ⟨?_, ?_, ?_⟩
    · rw [e2]; exact Dvd.intro_left _ rfl
    · rw [e6]; exact Dvd.intro_left _ rfl
    · rw [e2, e6, Int.mul_tdiv_cancel _ (by norm_num), Int.mul_tdiv_cancel _ (by norm_num),
        sumTo_affine]
  · intro i j g h
    obtain ⟨h1, h2, h3⟩ := golden_checked_some h
    refine ⟨h1, h3, ?_⟩
    intro bufA bufB m p hA hB hi hj
    rw [matmul_ref_init bufA bufB aa ab ac ba bb bc m n p i j hA hB hi hj]
    unfold row_col_dot
    rw [← h3]
    exact toInt64_of_inRange h2

/-- C3 for the configured coefficients at `N = 4` and the cell `(1, 2)`, where
nothing overflows: the golden value is `-2468`. -/
theorem closed_form_exact_witness :
    golden_checked (4 : Nat) 1 1 (-32) 2 1 16 (1 : Nat) (2 : Nat) = some (-2468) ∧
    golden (4 : Nat) 1 1 (-32) 2 1 16 (1 : Nat) (2 : Nat) = -2468 :=
  ⟨by decide, ((closed_form_exact 1 1 (-32) 2 1 16 4).2 1 2 (-2468) (by decide)).1⟩

/-- C4: for the configured coefficients and every size `s` of the sweep, with `A`
and `B` the buffers `init_matrix` writes at `s x s`: for every `i, j < s` the
golden value of `verify_matrix` with `m = n = p = s` equals the reference
`Σ_{k<s} A[i*s+k]·B[k*s+j]` in `int64_t` arithmetic, and `verify_matrix` returns
`0` on a buffer that holds this product. -/
theorem golden_matches_sweep (s : Nat) (hs : s ∈ [4, 8, 16, 32, 64, 128])
    (bufA bufB : Buffer) :
    (∀ i, i < s → ∀ j, j < s →
      golden s A_a A_b A_c B_a B_b B_c i j
        = matmul_ref (init_matrix bufA s s A_a A_b A_c) (init_matrix bufB s s B_a B_b B_c)
            s s i j) ∧
    (∀ out : Buffer,
      (∀ i, i < s → ∀ j, j < s →
        out (i * s + j)
          = matmul_ref (init_matrix bufA s s A_a A_b A_c)
              (init_matrix bufB s s B_a B_b B_c) s s i j) →
      (verify_matrix out s s s A_a A_b A_c B_a B_b B_c).1 = 0) := by
  have hs2 : s ≤ 128 := by
    simp only [List.mem_cons, List.mem_singleton, List.not_mem_nil, or_false] at hs
    omega
  have hsq : s * s ≤ 128 * 128 := Nat.mul_le_mul hs2 hs2
  have hfit : ∀ i, i < s → ∀ j, j < s → DividendsFit s A_a A_b A_c B_a B_b B_c i j :=
    fun i hi j hj => config_fits s i j hs2 (by omega) (by omega)
  constructor
  · intro i hi j hj
    rw [matmul_ref_init bufA bufB A_a A_b A_c B_a B_b B_c s s s i j (by omega) (by omega)
      hi hj, golden_eq_sum s A_a A_b A_c B_a B_b B_c i j (hfit i hi j hj)]
    rfl
  · intro out hout
    rw [verify_matrix_product bufA bufB out A_a A_b A_c B_a B_b B_c s s s (by omega)
      (by omega) (by omega) hfit hout]

/-- C4 at `s = 4`, the case of the specification: the golden value of the cell
`(1, 2)` is the brute-force value `-2468`. -/
theorem golden_matches_sweep_witness :
    4 ∈ [4, 8, 16, 32, 64, 128] ∧
    golden (4 : Nat) A_a A_b A_c B_a B_b B_c (1 : Nat) (2 : Nat)
      = matmul_ref (init_matrix (fun _ => 0) 4 4 A_a A_b A_c)
          (init_matrix (fun _ => 0) 4 4 B_a B_b B_c) 4 4 1 2 ∧
    matmul_ref (init_matrix (fun _ => 0) 4 4 A_a A_b A_c)
      (init_matrix (fun _ => 0) 4 4 B_a B_b B_c) 4 4 1 2 = -2468 :=
  ⟨by decide,
    (golden_matches_sweep 4 (by decide) (fun _ => 0) (fun _ => 0)).1 1 (by decide) 2
      (by decide),
    by decide⟩

/-- C5: after `init_matrix(buffer, rows, cols, a, b, c)` on a buffer of
`rows * cols` cells (`rows * cols ≤ 2^64`, so that the `uint64_t` index does not
wrap), `buffer[i*cols + j]` is `a*i + b*j + c` wrapped to 64 bits for every
`i < rows`, `j < cols`; the cells from `rows * cols` on keep their value; the
first `rows * cols` cells do not depend on the previous contents; and the
coefficients `(1, 1, -32)` give `A[0][0] = -32`, `A[0][1] = -31`, `A[1][0] = -31`. -/
theorem init_matrix_fills (buffer : Buffer) (rows cols : Nat) (a b c : Int)
    (h : rows * cols ≤ 18446744073709551616) :
    (∀ i, i < rows → ∀ j, j < cols →
      init_matrix buffer rows cols a b c (i * cols + j) = toInt64 (a * i + b * j + c)) ∧
    (∀ k, rows * cols ≤ k → init_matrix buffer rows cols a b c k = buffer k) ∧
    (∀ (other : Buffer) (k : Nat), k < rows * cols →
      init_matrix buffer rows cols a b c k = init_matrix other rows cols a b c k) ∧
    (2 ≤ rows → 2 ≤ cols →
      init_matrix buffer rows cols 1 1 (-32) (0 * cols + 0) = -32 ∧
      init_matrix buffer rows cols 1 1 (-32) (0 * cols + 1) = -31 ∧
      init_matrix buffer rows cols 1 1 (-32) (1 * cols + 0) = -31) := by
  refine ⟨fun i hi j hj => init_matrix_cell buffer rows cols a b c h i j hi hj,
    fun k hk => init_matrix_frame buffer rows cols a b c h k hk, ?_, ?_⟩
  · intro other k hk
    rw [init_matrix_lt buffer rows cols a b c h k hk,
      init_matrix_lt other rows cols a b c h k hk]
  · intro hr hc
    rw [init_matrix_cell buffer rows cols 1 1 (-32) h 0 0 (by omega) (by omega),
      init_matrix_cell buffer rows cols 1 1 (-32) h 0 1 (by omega) (by omega),
      init_matrix_cell buffer rows cols 1 1 (-32) h 1 0 (by omega) (by omega)]
    decide

/-- C5 on a `4 x 4` matrix with coefficients that wrap around. -/
theorem init_matrix_fills_witness :
    4 * 4 ≤ 18446744073709551616 ∧
    init_matrix (fun _ => 7) 4 4 4611686018427387904 1 (-32) (2 * 4 + 3)
      = toInt64 (4611686018427387904 * (2 : Nat) + 1 * (3 : Nat) + -32) ∧
    init_matrix (fun _ => 7) 4 4 4611686018427387904 1 (-32) 16 = 7 :=
  ⟨by decide,
    (init_matrix_fills (fun _ => 7) 4 4 4611686018427387904 1 (-32) (by decide)).1 2
      (by decide) 3 (by decide),
    (init_matrix_fills (fun _ => 7) 4 4 4611686018427387904 1 (-32) (by decide)).2.1 16
      (by decide)⟩

/-- C6: for `m, p ≥ 0` with `m * p < 2^31`, `verify_matrix` returns `0` exactly
when every cell `(i, j)`, `i < m`, `j < p`, equals `golden(i, j)`; otherwise,
with `(i1, j1)` the mismatching cell of least linear index, it returns `-1` when
`(i1, j1) = (0, 0)` and `i1 * p + j1` otherwise. -/
theorem verify_matrix_result (matrix : Buffer) (n aa ab ac ba bb bc : Int) (m p : Nat)
    (hb : m * p < 2147483648) :
    ((verify_matrix matrix m n p aa ab ac ba bb bc).1 = 0 ↔
      ∀ i, i < m → ∀ j, j < p → matrix (i * p + j) = golden n aa ab ac ba bb bc i j) ∧
    (∀ i1, i1 < m → ∀ j1, j1 < p →
      matrix (i1 * p + j1) ≠ golden n aa ab ac ba bb bc i1 j1 →
      (∀ i, i < m → ∀ j, j < p → i * p + j < i1 * p + j1 →
        matrix (i * p + j) = golden n aa ab ac ba bb bc i j) →
      (verify_matrix matrix m n p aa ab ac ba bb bc).1
        = if i1 = 0 ∧ j1 = 0 then -1 else ((i1 * p + j1 : Nat) : Int)) := by
  have hb2 : m * p ≤ 9223372036854775808 := by omega
  constructor
  · constructor
    · intro h0
      by_contra hne
      obtain ⟨i1, j1, hi1, hj1, hbad, hm⟩ :=
        exists_first_mismatch matrix (fun i j => golden n aa ab ac ba bb bc i j) m p
          (fun hall => hne (fun i hi j hj => hall i j hi hj))
      rw [verify_matrix_fail matrix n aa ab ac ba bb bc m p i1 j1 hb2 hi1 hj1 hbad hm] at h0
      exact error_code_ne_zero hb hi1 hj1 h0
    · intro hall
      rw [verify_matrix_pass matrix n aa ab ac ba bb bc m p hb2
        (fun i j hi hj => hall i hi j hj)]
  · intro i1 hi1 j1 hj1 hbad hm
    obtain ⟨hr1, _⟩ := row_bound hi1 hb2
    rw [verify_matrix_fail matrix n aa ab ac ba bb bc m p i1 j1 hb2 hi1 hj1 hbad
      (fun i j hi hj hlt => hm i hi j hj hlt)]
    exact error_code_eq hj1 (by omega)

/-- C6 on a `2 x 2` buffer whose last cell is wrong: the result is `3`. -/
theorem verify_matrix_result_witness :
    2 * 2 < 2147483648 ∧
    (verify_matrix (fun k => if k = 3 then 1 else 0) (2 : Nat) 0 (2 : Nat) 0 0 0 0 0 0).1
      = if 1 = 0 ∧ 1 = 0 then -1 else ((1 * 2 + 1 : Nat) : Int) :=
  ⟨by decide,
    (verify_matrix_result (fun k => if k = 3 then 1 else 0) 0 0 0 0 0 0 0 2 2
      (by decide)).2 1 (by decide) 1 (by decide) (by decide) (by decide)⟩

/-- C7, as stated, fails where the linear index does not fit the `int` result:
`wide_buffer`, verified as a `1 x (2^31 + 1)` matrix against the golden value `0`,
is wrong in the cell `(0, 2^31)` alone, and `verify_matrix` returns `-2^31`, not
the index `2^31`. -/
theorem verify_matrix_truncates :
    (∀ i, i < 1 → ∀ j, j < 2147483649 → (i, j) ≠ (0, 2147483648) →
      wide_buffer (i * 2147483649 + j) = golden 0 0 0 0 0 0 0 i j) ∧
    wide_buffer (0 * 2147483649 + 2147483648) ≠ golden 0 0 0 0 0 0 0 (0 : Nat) (2147483648 : Nat) ∧
    (verify_matrix wide_buffer (1 : Nat) 0 (2147483649 : Nat) 0 0 0 0 0 0).1 = -2147483648 := by
  have hgood : ∀ i, i < 1 → ∀ j, j < 2147483649 → (i, j) ≠ (0, 2147483648) →
      wide_buffer (i * 2147483649 + j) = golden 0 0 0 0 0 0 0 i j := by
    intro i hi j hj hne
    have hi0 : i = 0 := by omega
    subst hi0
    have hj2 : ¬ (0 * 2147483649 + j = 2147483648) := by
      intro h
      apply hne
      have : j = 2147483648 := by omega
      rw [this]
    rw [golden_zero]
    simp only [wide_buffer, if_neg hj2]
  have hbad : wide_buffer (0 * 2147483649 + 2147483648)
      ≠ golden 0 0 0 0 0 0 0 (0 : Nat) (2147483648 : Nat) := by
    rw [golden_zero]
    decide
  refine ⟨hgood, hbad, ?_⟩
  rw [verify_matrix_fail wide_buffer 0 0 0 0 0 0 0 1 2147483649 0 2147483648 (by decide)
    (by decide) (by decide) hbad
    (fun i j hi hj hlt => hgood i hi j hj (by
      intro h
      have h2 : j = 2147483648 := congrArg Prod.snd h
      have h1 : i = 0 := congrArg Prod.fst h
      subst h1 h2
      omega))]
  decide

/-- C7, amended: for a buffer of `m * p ≤ 2^63` cells that equals `golden(i, j)`
in every cell of the `m x p` range except exactly one cell `(i0, j0)` whose linear
index `i0 * p + j0` is below `2^31`, `verify_matrix` returns `i0 * p + j0` (or
`-1` when `(i0, j0) = (0, 0)`); afterwards every cell of linear index below
`i0 * p + j0` is `0` and every cell from `i0 * p + j0` on, the mismatching cell
included, holds the value it had before the call. -/
theorem verify_matrix_single_mismatch (matrix : Buffer) (n aa ab ac ba bb bc : Int)
    (m p i0 j0 : Nat) (hb : m * p ≤ 9223372036854775808) (hi0 : i0 < m) (hj0 : j0 < p)
    (ht : i0 * p + j0 < 2147483648)
    (hgood : ∀ i, i < m → ∀ j, j < p → (i, j) ≠ (i0, j0) →
      matrix (i * p + j) = golden n aa ab ac ba bb bc i j)
    (hbad : matrix (i0 * p + j0) ≠ golden n aa ab ac ba bb bc i0 j0) :
    (verify_matrix matrix m n p aa ab ac ba bb bc).1
      = (if i0 = 0 ∧ j0 = 0 then -1 else ((i0 * p + j0 : Nat) : Int)) ∧
    (∀ k, k < i0 * p + j0 → (verify_matrix matrix m n p aa ab ac ba bb bc).2 k = 0) ∧
    (∀ k, i0 * p + j0 ≤ k →
      (verify_matrix matrix m n p aa ab ac ba bb bc).2 k = matrix k) := by
  rw [verify_matrix_fail matrix n aa ab ac ba bb bc m p i0 j0 hb hi0 hj0 hbad
    (fun i j hi hj hlt => hgood i hi j hj (by
      intro h
      have h2 : j = j0 := congrArg Prod.snd h
      have h1 : i = i0 := congrArg Prod.fst h
      subst h1 h2
      omega))]
  refine ⟨error_code_eq hj0 ht, ?_, ?_⟩
  · intro k hk
    simp only [zeroBelow, if_pos hk]
  · intro k hk
    simp only [zeroBelow, if_neg (not_lt.mpr hk)]

/-- C7, amended, on a `2 x 2` buffer whose cell `(1, 0)` is wrong. -/
theorem verify_matrix_single_mismatch_witness :
    (verify_matrix (fun k => if k = 2 then 9 else 0) (2 : Nat) 0 (2 : Nat) 0 0 0 0 0 0).1
      = (if 1 = 0 ∧ 0 = 0 then -1 else ((1 * 2 + 0 : Nat) : Int)) ∧
    (verify_matrix (fun k => if k = 2 then 9 else 0) (2 : Nat) 0 (2 : Nat) 0 0 0 0 0 0).2 2
      = 9 :=
  ⟨(verify_matrix_single_mismatch (fun k => if k = 2 then 9 else 0) 0 0 0 0 0 0 0 2 2 1 0
      (by decide) (by decide) (by decide) (by decide)
      (by intro i hi j hj; interval_cases i <;> interval_cases j <;> decide)
      (by decide)).1,
    (verify_matrix_single_mismatch (fun k => if k = 2 then 9 else 0) 0 0 0 0 0 0 0 2 2 1 0
      (by decide) (by decide) (by decide) (by decide)
      (by intro i hi j hj; interval_cases i <;> interval_cases j <;> decide)
      (by decide)).2.2 2 (by decide)⟩

/-- C8, as stated, fails: on the `1 x 1` buffer holding `5` against the golden
value `0`, `verify_matrix` stops at the cell `(0, 0)` with the result `-1`, and
the mismatching cell still holds `5`: it has not been reset to `0`. -/
theorem verify_matrix_keeps_mismatch :
    (fun _ => 5 : Buffer) (0 * 1 + 0) ≠ golden 0 0 0 0 0 0 0 (0 : Nat) (0 : Nat) ∧
    (verify_matrix (fun _ => 5) 1 0 1 0 0 0 0 0 0).1 = -1 ∧
    (verify_matrix (fun _ => 5) 1 0 1 0 0 0 0 0 0).2 0 = 5 := by
  decide

/-- C8, amended: when `verify_matrix` (on `m * p ≤ 2^63` cells) stops at a first
mismatching cell `(i1, j1)`, every cell before it has been reset to `0`, the
mismatching cell itself and every cell after it hold the value they had before
the call, and neither the result nor the cells up to the mismatch depend on the
contents of the cells after the mismatching cell. -/
theorem verify_matrix_stops (matrix : Buffer) (n aa ab ac ba bb bc : Int)
    (m p i1 j1 : Nat) (hb : m * p ≤ 9223372036854775808) (hi1 : i1 < m) (hj1 : j1 < p)
    (hbad : matrix (i1 * p + j1) ≠ golden n aa ab ac ba bb bc i1 j1)
    (hfirst : ∀ i, i < m → ∀ j, j < p → i * p + j < i1 * p + j1 →
      matrix (i * p + j) = golden n aa ab ac ba bb bc i j) :
    (∀ k, k < i1 * p + j1 → (verify_matrix matrix m n p aa ab ac ba bb bc).2 k = 0) ∧
    (verify_matrix matrix m n p aa ab ac ba bb bc).2 (i1 * p + j1)
      = matrix (i1 * p + j1) ∧
    (∀ k, i1 * p + j1 < k →
      (verify_matrix matrix m n p aa ab ac ba bb bc).2 k = matrix k) ∧
    (∀ other : Buffer, (∀ k, k ≤ i1 * p + j1 → other k = matrix k) →
      (verify_matrix other m n p aa ab ac ba bb bc).1
        = (verify_matrix matrix m n p aa ab ac ba bb bc).1 ∧
      ∀ k, k ≤ i1 * p + j1 →
        (verify_matrix other m n p aa ab ac ba bb bc).2 k
          = (verify_matrix matrix m n p aa ab ac ba bb bc).2 k) := by
  rw [verify_matrix_fail matrix n aa ab ac ba bb bc m p i1 j1 hb hi1 hj1 hbad
    (fun i j hi hj hlt => hfirst i hi j hj hlt)]
  refine ⟨?_, ?_, ?_, ?_⟩
  · intro k hk
    simp only [zeroBelow, if_pos hk]
  · simp only [zeroBelow, if_neg (lt_irrefl _)]
  · intro k hk
    simp only [zeroBelow, if_neg (not_lt.mpr (le_of_lt hk))]
  · intro other hsame
    have hbad2 : other (i1 * p + j1) ≠ golden n aa ab ac ba bb bc i1 j1 := by
      rw [hsame _ (le_refl _)]; exact hbad
    rw [verify_matrix_fail other n aa ab ac ba bb bc m p i1 j1 hb hi1 hj1 hbad2
      (fun i j hi hj hlt => by
        rw [hsame _ (le_of_lt hlt)]; exact hfirst i hi j hj hlt)]
    refine ⟨rfl, ?_⟩
    intro k hk
    simp only [zeroBelow]
    rw [hsame k hk]

/-- C8, amended, on a `2 x 2` buffer whose cell `(0, 1)` is the first wrong one:
the cell before it is reset and the mismatching cell keeps its value. -/
theorem verify_matrix_stops_witness :
    (verify_matrix (fun k => if k = 0 then 0 else 9) (2 : Nat) 0 (2 : Nat) 0 0 0 0 0 0).2
        (0 * 2 + 1)
      = (fun k => if k = 0 then 0 else 9 : Buffer) (0 * 2 + 1) :=
  (verify_matrix_stops (fun k => if k = 0 then 0 else 9) 0 0 0 0 0 0 0 2 2 0 1
    (by decide) (by decide) (by decide) (by decide)
    (by intro i hi j hj; interval_cases i <;> interval_cases j <;> decide)).2.1

/-- C9: for `m, p ≥ 0` with `m * p < 2^31`, if `verify_matrix` returns `0` then
afterwards every cell of index below `m * p` is `0` and every other cell is
unchanged.  Hence, for the loop body of `main` at a size `s`: if `c` is all-zero
before the iteration, the kernel writes only the first `s * s` cells of `c` and
the verification passes, then `c` is all-zero after the iteration. -/
theorem verify_matrix_zeroes :
    (∀ (matrix : Buffer) (n aa ab ac ba bb bc : Int) (m p : Nat), m * p < 2147483648 →
      (verify_matrix matrix m n p aa ab ac ba bb bc).1 = 0 →
      (∀ k, k < m * p → (verify_matrix matrix m n p aa ab ac ba bb bc).2 k = 0) ∧
      (∀ k, m * p ≤ k → (verify_matrix matrix m n p aa ab ac ba bb bc).2 k = matrix k)) ∧
    (∀ (matmul : State → Nat → Nat → Nat → State) (s : Nat) (st : State),
      s * s < 2147483648 → (∀ k, st.c k = 0) →
      (∀ (x : State) (k : Nat), s * s ≤ k → (matmul x s s s).c k = x.c k) →
      (iteration matmul s st).1 = 0 → ∀ k, (iteration matmul s st).2.c k = 0) := by
  have part1 : ∀ (matrix : Buffer) (n aa ab ac ba bb bc : Int) (m p : Nat),
      m * p < 2147483648 →
      (verify_matrix matrix m n p aa ab ac ba bb bc).1 = 0 →
      (verify_matrix matrix m n p aa ab ac ba bb bc).2 = zeroBelow matrix (m * p) := by
    intro matrix n aa ab ac ba bb bc m p hb h0
    have hb2 : m * p ≤ 9223372036854775808 := by omega
    by_cases hall : ∀ i j, i < m → j < p →
        matrix (i * p + j) = golden n aa ab ac ba bb bc i j
    · rw [verify_matrix_pass matrix n aa ab ac ba bb bc m p hb2 hall]
    · obtain ⟨i1, j1, hi1, hj1, hbad, hm⟩ :=
        exists_first_mismatch matrix (fun i j => golden n aa ab ac ba bb bc i j) m p hall
      rw [verify_matrix_fail matrix n aa ab ac ba bb bc m p i1 j1 hb2 hi1 hj1 hbad hm] at h0
      exact absurd h0 (error_code_ne_zero hb hi1 hj1)
  constructor
  · intro matrix n aa ab ac ba bb bc m p hb h0
    rw [part1 matrix n aa ab ac ba bb bc m p hb h0]
    constructor
    · intro k hk
      simp only [zeroBelow, if_pos hk]
    · intro k hk
      simp only [zeroBelow, if_neg (not_lt.mpr hk)]
  · intro matmul s st hb hzero hframe h0 k
    simp only [iteration] at h0 ⊢
    rw [part1 _ _ _ _ _ _ _ _ s s hb h0]
    by_cases hk : k < s * s
    · simp only [zeroBelow, if_pos hk]
    · simp only [zeroBelow, if_neg hk]
      rw [hframe _ k (not_lt.mp hk)]
      exact hzero k

/-- C9 on an all-zero `2 x 2` buffer, and on the loop body at `s = 4` with a
kernel that delivers the exact product. -/
theorem verify_matrix_zeroes_witness :
    (verify_matrix (fun _ => 0) (2 : Nat) 0 (2 : Nat) 0 0 0 0 0 0).2 5 = 0 ∧
    (iteration exact_kernel 4 ⟨fun _ => 0, fun _ => 0, fun _ => 0⟩).2.c 20 = 0 :=
  ⟨(verify_matrix_zeroes.1 (fun _ => 0) 0 0 0 0 0 0 0 2 2 (by decide) (by decide)).2 5
      (by decide),
    verify_matrix_zeroes.2 exact_kernel 4 ⟨fun _ => 0, fun _ => 0, fun _ => 0⟩ (by decide)
      (fun _ => rfl)
      (fun x k hk => by simp only [exact_kernel, if_neg (not_lt.mpr hk)])
      (by decide) 20⟩

/-- C10: for every kernel and every timer, `main` returns a value, and that value
is `0` exactly when `verify_matrix` returns `0` at each of the six sizes of the
sweep; when the size number `k0` is the first at which `verify_matrix` returns a
non-zero value, `main` returns that value and its events are those of the sizes
up to number `k0` only: no later size is generated, multiplied or verified.  In
particular, when the kernel delivers an `out[0]` that differs from the golden
value at `s = 4`, `main` returns `-1` and the events are those of size `4` alone. -/
theorem main_result (matmul : State → Nat → Nat → Nat → State) (get_timer : Nat → Int)
    (st : State) :
    (∃ r, main matmul get_timer st = some r ∧
      (r.1 = 0 ↔ ∀ k, k < 6 → error_at matmul st k = 0)) ∧
    ((∀ k, k < 6 → error_at matmul st k = 0) →
      main matmul get_timer st
        = some (0, state_at matmul st 6, events_upto matmul get_timer st 6)) ∧
    (∀ k0, k0 < 6 → error_at matmul st k0 ≠ 0 →
      (∀ k, k < k0 → error_at matmul st k = 0) →
      main matmul get_timer st
        = some (error_at matmul st k0, state_at matmul st (k0 + 1),
            events_upto matmul get_timer st (k0 + 1))) ∧
    ((matmul ⟨init_matrix st.a 4 4 A_a A_b A_c, init_matrix st.b 4 4 B_a B_b B_c, st.c⟩
          4 4 4).c 0 ≠ golden (4 : Nat) A_a A_b A_c B_a B_b B_c (0 : Nat) (0 : Nat) →
      main matmul get_timer st
        = some (-1, state_at matmul st 1,
            [Event.init 4, Event.kernel 4 (get_timer 4), Event.verify 4 (-1)])) := by
  refine ⟨?_, main_pass matmul get_timer st, main_fail matmul get_timer st, ?_⟩
  · by_cases hz : ∀ k, k < 6 → error_at matmul st k = 0
    · exact ⟨_, main_pass matmul get_timer st hz, fun _ => hz, fun _ => rfl⟩
    · classical
      have hex : ∃ k, k < 6 ∧ error_at matmul st k ≠ 0 := by
        by_contra hne
        apply hz
        intro k hk
        by_contra hbad
        exact hne ⟨k, hk, hbad⟩
      obtain ⟨hk0, hbad⟩ := Nat.find_spec hex
      have hmin : ∀ k, k < Nat.find hex → error_at matmul st k = 0 := by
        intro k hk
        by_contra hbad2
        exact Nat.find_min hex hk ⟨by omega, hbad2⟩
      refine ⟨_, main_fail matmul get_timer st (Nat.find hex) hk0 hbad hmin, ?_⟩
      constructor
      · intro h0
        exact absurd h0 hbad
      · intro hall
        exact absurd hall hz
  · intro hbad
    have he : error_at matmul st 0 = -1 := by
      simp only [error_at, state_at, iteration, pow_zero, mul_one]
      rw [verify_matrix_fail _ (4 : Nat) A_a A_b A_c B_a B_b B_c 4 4 0 0 (by decide)
        (by decide) (by decide) hbad (fun i j _ _ hlt => absurd hlt (by omega))]
      show error_code ((4 : Nat) : Int) 0 0 = -1
      decide
    have := main_fail matmul get_timer st 0 (by omega) (by rw [he]; decide)
      (fun k hk => absurd hk (by omega))
    rw [this, he]
    simp [events_upto, iteration_events, he]

/-- C10 for the kernel that flips the lowest bit of `out[0]`: `main` returns `-1`
and nothing but the size `4` has been run. -/
theorem main_result_witness :
    (main broken_kernel (fun _ => 100) ⟨fun _ => 0, fun _ => 0, fun _ => 0⟩).map
        (fun r => (r.1, r.2.2))
      = some (-1, [Event.init 4, Event.kernel 4 100, Event.verify 4 (-1)]) := by
  rw [(main_result broken_kernel (fun _ => 100) ⟨fun _ => 0, fun _ => 0, fun _ => 0⟩).2.2.2
    (by decide)]
  rfl

/-- C11: the driver loop terminates: `main` returns a value, the same for every
fuel from `7` on.  When no size fails it runs exactly the sizes `4, 8, 16, 32, 64,
128` in that order and returns `0`.  The three buffers have `M*N = N*P = M*P =
16384` cells, and for every size `s` of the sweep `s ≤ M`, `s * s ≤ 128 * 128`,
every index `i * s + j` that `init_matrix` and `verify_matrix` use is below that
capacity, and neither function changes a cell from the capacity on. -/
theorem main_terminates (matmul : State → Nat → Nat → Nat → State) (get_timer : Nat → Int)
    (st : State) :
    (∃ r, main matmul get_timer st = some r ∧
      ∀ fuel, 7 ≤ fuel → main_loop matmul get_timer fuel 4 st [] = some r) ∧
    ((∀ k, k < 6 → error_at matmul st k = 0) →
      ∃ st', main matmul get_timer st = some (0, st',
        [Event.init 4, Event.kernel 4 (get_timer 4), Event.verify 4 0,
         Event.init 8, Event.kernel 8 (get_timer 8), Event.verify 8 0,
         Event.init 16, Event.kernel 16 (get_timer 16), Event.verify 16 0,
         Event.init 32, Event.kernel 32 (get_timer 32), Event.verify 32 0,
         Event.init 64, Event.kernel 64 (get_timer 64), Event.verify 64 0,
         Event.init 128, Event.kernel 128 (get_timer 128), Event.verify 128 0])) ∧
    (M * N = 16384 ∧ N * P = 16384 ∧ M * P = 16384) ∧
    (∀ s, s ∈ [4, 8, 16, 32, 64, 128] → s ≤ M ∧ s * s ≤ 128 * 128 ∧
      (∀ i, i < s → ∀ j, j < s →
        init_index s i j = i * s + j ∧ init_index s i j < M * N ∧
        init_index s i j < N * P ∧
        cell_index s i j = i * s + j ∧ cell_index s i j < M * P) ∧
      (∀ (buf : Buffer) (a b c : Int) (k : Nat), M * N ≤ k →
        init_matrix buf s s a b c k = buf k) ∧
      (∀ (buf : Buffer) (n aa ab ac ba bb bc : Int) (k : Nat), M * P ≤ k →
        (verify_matrix buf s n s aa ab ac ba bb bc).2 k = buf k)) := by
  refine ⟨?_, ?_, ⟨by decide, by decide, by decide⟩, ?_⟩
  · cases hmain : main matmul get_timer st with
    | some r =>
      refine ⟨r, rfl, fun fuel hf => ?_⟩
      rw [main_loop_any_fuel matmul get_timer st fuel hf, hmain]
    | none =>
      exfalso
      by_cases hz : ∀ k, k < 6 → error_at matmul st k = 0
      · rw [main_pass matmul get_timer st hz] at hmain
        exact Option.noConfusion hmain
      · classical
        have hex : ∃ k, k < 6 ∧ error_at matmul st k ≠ 0 := by
          by_contra hne
          apply hz
          intro k hk
          by_contra hbad
          exact hne ⟨k, hk, hbad⟩
        obtain ⟨hk0, hbad⟩ := Nat.find_spec hex
        have hmin : ∀ k, k < Nat.find hex → error_at matmul st k = 0 := by
          intro k hk
          by_contra hbad2
          exact Nat.find_min hex hk ⟨by omega, hbad2⟩
        rw [main_fail matmul get_timer st (Nat.find hex) hk0 hbad hmin] at hmain
        exact Option.noConfusion hmain
  · intro hz
    refine ⟨state_at matmul st 6, ?_⟩
    rw [main_pass matmul get_timer st hz]
    simp [events_upto, iteration_events, hz 0 (by omega), hz 1 (by omega), hz 2 (by omega),
      hz 3 (by omega), hz 4 (by omega), hz 5 (by omega)]
  · intro s hs
    have hs2 : s ≤ 128 := by
      simp only [List.mem_cons, List.mem_singleton, List.not_mem_nil, or_false] at hs
      omega
    have hsq : s * s ≤ 128 * 128 := Nat.mul_le_mul hs2 hs2
    refine ⟨hs2, hsq, ?_, ?_, ?_⟩
    · intro i hi j hj
      have hlt : i * s + j < s * s := index_lt_square hi hj
      rw [init_index_eq (by omega), cell_index_eq (by omega)]
      have c1 : M * N = 16384 := by decide
      have c2 : N * P = 16384 := by decide
      have c3 : M * P = 16384 := by decide
      rw [c1, c2, c3]
      refine ⟨rfl, ?_, ?_, rfl, ?_⟩ <;> omega
    · intro buf a b c k hk
      simp only [M, N] at hk
      exact init_matrix_frame buf s s a b c (by omega) k (by omega)
    · intro buf n aa ab ac ba bb bc k hk
      simp only [M, P] at hk
      exact verify_matrix_frame buf n aa ab ac ba bb bc s s (by omega) k (by omega)

/-- C11 with the kernel that delivers the exact product: `main` returns `0` after
the sizes `4, 8, 16, 32, 64, 128`. -/
theorem main_terminates_witness :
    (main exact_kernel (fun _ => 100) ⟨fun _ => 0, fun _ => 0, fun _ => 0⟩).map
        (fun r => (r.1, r.2.2))
      = some (0,
        [Event.init 4, Event.kernel 4 100, Event.verify 4 0,
         Event.init 8, Event.kernel 8 100, Event.verify 8 0,
         Event.init 16, Event.kernel 16 100, Event.verify 16 0,
         Event.init 32, Event.kernel 32 100, Event.verify 32 0,
         Event.init 64, Event.kernel 64 100, Event.verify 64 0,
         Event.init 128, Event.kernel 128 100, Event.verify 128 0]) := by
  obtain ⟨st', h⟩ :=
    (main_terminates exact_kernel (fun _ => 100) ⟨fun _ => 0, fun _ => 0, fun _ => 0⟩).2.1
      (fun k hk => exact_kernel_passes _ k hk)
  rw [h]
  rfl

/-- C12, as stated, fails: for `A = (0, 2^62, 0)`, `B = (0, 0, 1)`, `n = 2` and the
cell `(0, 0)` the code forms `2^62 * 2`, which wraps to `-2^63`, and halves it to
`-2^62`, while the formula of the specification halves `n * (n - 1) = 2` first
and gives `2^62`. -/
theorem golden_ne_spec_golden :
    golden 2 0 4611686018427387904 0 0 0 1 0 0 = -4611686018427387904 ∧
    spec_golden 2 0 4611686018427387904 0 0 0 1 0 0 = 4611686018427387904 := by
  decide

/-- C12, amended: for all coefficients, `n`, `i` and `j` for which
`n * (n - 1) * (2 * n - 1)` and the two dividends are formed without overflow,
the golden value of `verify_matrix` equals the formula of section 4.2 of the
specification, evaluated in the same 64-bit wraparound arithmetic with
truncating division, in which the constants are divided first. -/
theorem golden_eq_spec_golden (n aa ab ac ba bb bc i j : Int)
    (h : DividendsFit n aa ab ac ba bb bc i j) :
    golden n aa ab ac ba bb bc i j = spec_golden n aa ab ac ba bb bc i j := by
  obtain ⟨h3, hq, hc⟩ := h
  obtain ⟨a, ha⟩ := two_dvd_pair n
  obtain ⟨b, hb⟩ := six_dvd_triple n
  have ha2 : n * (n - 1) = a * 2 := by rw [ha]; ring
  have hb2 : n * (n - 1) * (2 * n - 1) = b * 6 := by rw [hb]; ring
  have q1 : qua n aa ab ac ba bb bc i j = quaCoef aa ab ac ba bb bc i j * a := by
    unfold qua quaDividend
    rw [pairFactor_eq_int h3]
    unfold mul64
    rw [toInt64_of_inRange hq, ha2, ← mul_assoc]
    exact Int.mul_tdiv_cancel _ (by norm_num)
  have q2 : mul64 (Int.tdiv (pairFactor n) 2) (quaCoef aa ab ac ba bb bc i j)
      = quaCoef aa ab ac ba bb bc i j * a := by
    rw [pairFactor_eq_int h3, ha2, Int.mul_tdiv_cancel _ (by norm_num)]
    unfold mul64
    rw [mul_comm a]
    exact toInt64_of_inRange (inRange_of_mul 2 (by norm_num) (by rw [← ha2]; exact hq))
  have c1 : cub n ab ba = mul64 ab ba * b := by
    unfold cub cubDividend
    rw [tripleFactor_eq_int h3]
    have e : mul64 (mul64 ab ba) (n * (n - 1) * (2 * n - 1))
        = mul64 ab ba * (n * (n - 1) * (2 * n - 1)) := toInt64_of_inRange hc
    rw [e, hb2, ← mul_assoc]
    exact Int.mul_tdiv_cancel _ (by norm_num)
  have c2 : mul64 (Int.tdiv (tripleFactor n) 6) (mul64 ab ba) = mul64 ab ba * b := by
    rw [tripleFactor_eq_int h3, hb2, Int.mul_tdiv_cancel _ (by norm_num)]
    have e : mul64 b (mul64 ab ba) = toInt64 (b * mul64 ab ba) := rfl
    rw [e, mul_comm b]
    exact toInt64_of_inRange (inRange_of_mul 6 (by norm_num) (by rw [← hb2]; exact hc))
  have l1 : lin n aa ac bb bc i j = mul64 n (linCoef aa ac bb bc i j) := by
    unfold lin mul64
    rw [mul_comm]
  unfold golden spec_golden
  rw [q1, q2, c1, c2, l1]

/-- C12, amended, at coefficients for which `lin` wraps around. -/
theorem golden_eq_spec_golden_witness :
    DividendsFit 3 4611686018427387904 1 5 4 1 2 1 1 ∧
    golden 3 4611686018427387904 1 5 4 1 2 1 1
      = spec_golden 3 4611686018427387904 1 5 4 1 2 1 1 :=
  ⟨by decide, golden_eq_spec_golden 3 4611686018427387904 1 5 4 1 2 1 1 (by decide)⟩

/-- C13: the division by `2` in `verify_matrix` is always exact: for all
coefficients, `n`, `i` and `j` the dividend of `qua`, as computed in 64-bit
wraparound arithmetic, is even, the truncating division leaves no remainder, and
`qua * 2` is the dividend. -/
theorem quaDividend_even (n aa ab ac ba bb bc i j : Int) :
    (2 : Int) ∣ quaDividend n aa ab ac ba bb bc i j ∧
    Int.tmod (quaDividend n aa ab ac ba bb bc i j) 2 = 0 ∧
    qua n aa ab ac ba bb bc i j * 2 = quaDividend n aa ab ac ba bb bc i j := by
  have hd : (2 : Int) ∣ quaDividend n aa ab ac ba bb bc i j := by
    apply even_iff_two_dvd.mp
    unfold quaDividend mul64
    rw [toInt64_even, Int.even_mul]
    exact Or.inr (pairFactor_even n)
  exact ⟨hd, Int.tmod_eq_zero_of_dvd hd, Int.tdiv_mul_cancel hd⟩

/-- C14, as stated, fails: for `ab = 2^62`, `ba = 1` and `n = 2` the dividend
`2^62 * 6` wraps to `-2^63`, which is not divisible by `6`; the truncating
division leaves the remainder `-2`. -/
theorem cubDividend_not_divisible :
    cubDividend 2 4611686018427387904 1 = -9223372036854775808 ∧
    ¬ ((6 : Int) ∣ cubDividend 2 4611686018427387904 1) ∧
    Int.tmod (cubDividend 2 4611686018427387904 1) 6 = -2 ∧
    cub 2 4611686018427387904 1 * 6 ≠ cubDividend 2 4611686018427387904 1 := by
  decide

/-- C14, amended: for all coefficients `ab`, `ba` and every `n` for which
`n * (n - 1) * (2 * n - 1)` and the dividend `(ab * ba) * (n * (n - 1) * (2 * n - 1))`
are formed without overflow, the dividend of `cub` is divisible by `6`, the
truncating division leaves no remainder, and `cub * 6` is the dividend. -/
theorem cubDividend_exact (n ab ba : Int) (h3 : InRange (n * (n - 1) * (2 * n - 1)))
    (hc : InRange (mul64 ab ba * (n * (n - 1) * (2 * n - 1)))) :
    (6 : Int) ∣ cubDividend n ab ba ∧
    Int.tmod (cubDividend n ab ba) 6 = 0 ∧
    cub n ab ba * 6 = cubDividend n ab ba := by
  have hd : (6 : Int) ∣ cubDividend n ab ba := by
    unfold cubDividend
    rw [tripleFactor_eq_int h3]
    have e : mul64 (mul64 ab ba) (n * (n - 1) * (2 * n - 1))
        = mul64 ab ba * (n * (n - 1) * (2 * n - 1)) := toInt64_of_inRange hc
    rw [e]
    exact Dvd.dvd.mul_left (six_dvd_triple n) _
  exact ⟨hd, Int.tmod_eq_zero_of_dvd hd, Int.tdiv_mul_cancel hd⟩

/-- C14, amended, for the configured coefficients at `n = 128`. -/
theorem cubDividend_exact_witness :
    InRange (128 * (128 - 1) * (2 * 128 - 1)) ∧
    (6 : Int) ∣ cubDividend 128 1 2 ∧ cub 128 1 2 * 6 = cubDividend 128 1 2 :=
  ⟨by decide, (cubDividend_exact 128 1 2 (by decide) (by decide)).1,
    (cubDividend_exact 128 1 2 (by decide) (by decide)).2.2⟩

/-- C15: for `m, p ≥ 0` with `m * p < 2^31`, a non-zero result of `verify_matrix`
is either `-1`, returned for a mismatch in the cell `(0, 0)`, or the linear index
`k = i * p + j`, `1 ≤ k < m * p`, of a cell that does not hold its golden value
and that holds its original value after the call.  Hence `-1` is the only
non-zero result that is not an index into the verified buffer. -/
theorem verify_matrix_error_index (matrix : Buffer) (n aa ab ac ba bb bc : Int)
    (m p : Nat) (hb : m * p < 2147483648)
    (hne : (verify_matrix matrix m n p aa ab ac ba bb bc).1 ≠ 0) :
    ((verify_matrix matrix m n p aa ab ac ba bb bc).1 = -1 ∧ 0 < m * p ∧
      matrix 0 ≠ golden n aa ab ac ba bb bc (0 : Nat) (0 : Nat) ∧
      (verify_matrix matrix m n p aa ab ac ba bb bc).2 0 = matrix 0) ∨
    (∃ k : Nat, (verify_matrix matrix m n p aa ab ac ba bb bc).1 = (k : Int) ∧
      1 ≤ k ∧ k < m * p ∧
      (verify_matrix matrix m n p aa ab ac ba bb bc).2 k = matrix k ∧
      ∃ i j, i < m ∧ j < p ∧ k = i * p + j ∧
        matrix k ≠ golden n aa ab ac ba bb bc i j) := by
  have hb2 : m * p ≤ 9223372036854775808 := by omega
  by_cases hall : ∀ i j, i < m → j < p →
      matrix (i * p + j) = golden n aa ab ac ba bb bc i j
  · rw [verify_matrix_pass matrix n aa ab ac ba bb bc m p hb2 hall] at hne
    exact absurd rfl hne
  · obtain ⟨i1, j1, hi1, hj1, hbad, hm⟩ :=
      exists_first_mismatch matrix (fun i j => golden n aa ab ac ba bb bc i j) m p hall
    obtain ⟨hr1, _⟩ := row_bound hi1 hb2
    rw [verify_matrix_fail matrix n aa ab ac ba bb bc m p i1 j1 hb2 hi1 hj1 hbad hm]
    simp only []
    rw [error_code_eq hj1 (by omega)]
    by_cases hz : i1 = 0 ∧ j1 = 0
    · left
      obtain ⟨rfl, rfl⟩ := hz
      rw [if_pos ⟨rfl, rfl⟩]
      refine ⟨rfl, by omega, by simpa using hbad, ?_⟩
      simp [zeroBelow]
    · right
      rw [if_neg hz]
      have hi : i1 * 1 ≤ i1 * p := Nat.mul_le_mul_left i1 (by omega)
      refine ⟨i1 * p + j1, rfl, by omega, by omega, ?_, i1, j1, hi1, hj1, rfl, hbad⟩
      simp only [zeroBelow, if_neg (lt_irrefl _)]

/-- C15 on a `2 x 2` buffer whose last cell is wrong: the result is the index `3`
of that cell, which keeps its value `1`. -/
theorem verify_matrix_error_index_witness :
    2 * 2 < 2147483648 ∧
    (verify_matrix (fun k => if k = 3 then 1 else 0) (2 : Nat) 0 (2 : Nat) 0 0 0 0 0 0).1 ≠ 0 ∧
    (((verify_matrix (fun k => if k = 3 then 1 else 0) (2 : Nat) 0 (2 : Nat) 0 0 0 0 0 0).1
          = -1 ∧ 0 < 2 * 2 ∧
        (fun k => if k = 3 then 1 else 0 : Buffer) 0
          ≠ golden 0 0 0 0 0 0 0 (0 : Nat) (0 : Nat) ∧
        (verify_matrix (fun k => if k = 3 then 1 else 0) (2 : Nat) 0 (2 : Nat) 0 0 0 0 0 0).2 0
          = (fun k => if k = 3 then 1 else 0 : Buffer) 0) ∨
      (∃ k : Nat,
        (verify_matrix (fun k => if k = 3 then 1 else 0) (2 : Nat) 0 (2 : Nat) 0 0 0 0 0 0).1
          = (k : Int) ∧
        1 ≤ k ∧ k < 2 * 2 ∧
        (verify_matrix (fun k => if k = 3 then 1 else 0) (2 : Nat) 0 (2 : Nat) 0 0 0 0 0 0).2 k
          = (fun k => if k = 3 then 1 else 0 : Buffer) k ∧
        ∃ i j, i < 2 ∧ j < 2 ∧ k = i * 2 + j ∧
          (fun k => if k = 3 then 1 else 0 : Buffer) k ≠ golden 0 0 0 0 0 0 0 i j)) :=
  ⟨by decide, by decide,
    verify_matrix_error_index (fun k => if k = 3 then 1 else 0) 0 0 0 0 0 0 0 2 2
      (by decide) (by decide)⟩

end Matmul
